import Mathlib

/-!
Verification of the pfta deep-comparison library (compare.ts, diff.ts, equal.ts,
visit.ts, copy.ts) against its natural-language specification.

The embedding models JavaScript values over the kinds the analysed claims
exercise: undefined, null, booleans, numbers, strings, arrays and plain
objects.  Containers live in an explicit heap addressed by natural numbers, so
reference identity (`Object.is`), shared references and cyclic graphs are
representable.  Finite JS numbers are modelled as exact rationals and NaN as a
separate constructor; the IEEE kinds the claims touch (NaN propagation, the
default `Number.EPSILON` tolerance at exactly representable dyadic inputs) are
exact in this model.  `localeCompare` is modelled as the canonical total order
on strings (zero exactly on identical strings).  The recursive algorithms are
fuel-indexed so that every definition is executable; running out of fuel is the
distinguished error `Err.fuelOut`, kept separate from the `TypeError` that
`Diff.createAdd` can raise.  The `looseEquality` option is fixed to `false`
(no analysed claim enables it), and ES6 Map/Set/Date/RegExp/binary leaves are
outside the modelled value universe (no analysed claim mentions them).
-/

namespace Pfta

/-- Model of a JS number: NaN, or a finite value as an exact rational. -/
inductive JNum where
  | nan : JNum
  | fin (q : ℚ) : JNum
deriving DecidableEq, Repr

/-- Model of JS `isNaN` on numbers. -/
def JNum.isNaN : JNum → Bool
  | .nan => true
  | .fin _ => false

/-- Exact subtraction on rationals, written with `mkRat` (cross multiplication)
so the kernel can evaluate it on literals. -/
def qsub (a b : ℚ) : ℚ := mkRat (a.num * (b.den : Int) - b.num * (a.den : Int)) (a.den * b.den)

/-- Kernel-evaluable strict order on rationals. -/
def qlt (a b : ℚ) : Bool := Rat.blt a b

/-- Kernel-evaluable absolute value on rationals. -/
def qabs (q : ℚ) : ℚ := if Rat.blt q 0 then -q else q

/-- JS subtraction: NaN propagates. -/
def JNum.sub : JNum → JNum → JNum
  | .fin a, .fin b => .fin (qsub a b)
  | _, _ => .nan

/-- JS `Math.abs`: NaN propagates. -/
def JNum.abs : JNum → JNum
  | .fin a => .fin (qabs a)
  | .nan => .nan

/-- JS `<` on numbers: any comparison against NaN is false. -/
def JNum.lt : JNum → JNum → Bool
  | .fin a, .fin b => qlt a b
  | _, _ => false

/-- The default numeric tolerance, `Number.EPSILON` = 2⁻⁵². -/
def NUMBER_EPSILON : ℚ := mkRat 1 (2 ^ 52)

/-- Model of `String.prototype.localeCompare`: zero exactly on identical
strings, otherwise the sign of the canonical string order. -/
def localeCompare (a b : String) : Int :=
  if a = b then 0 else if a < b then -1 else 1

/-- A JS value: a scalar, or a reference to a container in the heap. -/
inductive HVal where
  | undef : HVal
  | null : HVal
  | bool (b : Bool) : HVal
  | num (n : JNum) : HVal
  | str (s : String) : HVal
  | ref (a : Nat) : HVal
deriving DecidableEq, Repr

/-- A heap container: an array of values or a plain object (ordered property
list, mirroring JS property insertion order as reported by `Object.keys`). -/
inductive HObj where
  | arr (elems : List HVal) : HObj
  | obj (props : List (String × HVal)) : HObj
deriving DecidableEq, Repr

/-- A heap maps addresses to containers (first binding wins). -/
abbrev Heap := List (Nat × HObj)

/-- Look an address up in the heap. -/
def heapFind (H : Heap) (a : Nat) : Option HObj :=
  (H.find? (fun p => p.1 = a)).map Prod.snd

/-- Model of `Visitor.updateNodeTypeOf` restricted to the modelled universe:
the JS `typeof` operator with the library's refinements for objects. -/
def typeOfV (H : Heap) : HVal → String
  | .undef => "undefined"
  | .null => "null"
  | .bool _ => "boolean"
  | .num _ => "number"
  | .str _ => "string"
  | .ref a =>
    match heapFind H a with
    | some (.arr _) => "array"
    | some (.obj _) => "object"
    | none => "object"

/-- Property names of an object value, in insertion order (the default
`ownEnumerableNames` = `Object.keys` enumeration; no `propFilter`). -/
def objPropsH (H : Heap) : HVal → List String
  | .ref a =>
    match heapFind H a with
    | some (.obj ps) => ps.map Prod.fst
    | _ => []
  | _ => []

/-- Model of reading `obj[prop]`: the first binding of the key, else undefined. -/
def objGetH (H : Heap) (v : HVal) (k : String) : HVal :=
  match v with
  | .ref a =>
    match heapFind H a with
    | some (.obj ps) => ((ps.find? (fun p => p.1 = k)).map Prod.snd).getD HVal.undef
    | _ => HVal.undef
  | _ => HVal.undef

/-- Elements of an array value. -/
def arrElemsH (H : Heap) : HVal → List HVal
  | .ref a =>
    match heapFind H a with
    | some (.arr es) => es
    | _ => []
  | _ => []

/-- JS truthiness of a modelled value. -/
def truthy : HVal → Bool
  | .undef => false
  | .null => false
  | .bool b => b
  | .num .nan => false
  | .num (.fin q) => decide (q ≠ 0)
  | .str s => decide (s ≠ "")
  | .ref _ => true

/-- Model of `Object.is`: scalars by value (NaN is `Object.is`-equal to NaN),
references by address.  Structural equality of `HVal` is exactly this relation
because container contents live behind `ref` addresses.  (The model has no
negative zero, the one further case `Object.is` distinguishes.) -/
def objectIs (a b : HVal) : Bool := decide (a = b)

/-- Model of strict equality `===`: like `Object.is` except NaN is not
strictly equal to anything. -/
def strictEq (a b : HVal) : Bool :=
  match a, b with
  | .num .nan, _ => false
  | _, .num .nan => false
  | _, _ => decide (a = b)

/-- The tri-state comparison outcome values that flow through the algorithm:
`same` is the `IS_SAME = null` marker, `b x` a boolean outcome
(`IS_EQUAL_B`/`NOT_EQUAL`), `n x` a numeric ordering outcome. -/
inductive CmpRes where
  | same : CmpRes
  | b (x : Bool) : CmpRes
  | n (x : Int) : CmpRes
deriving DecidableEq, Repr

/-- Model of the `IS_EQUAL` helper: null, false and zero all signify equality. -/
def isEqualRes : CmpRes → Bool
  | .same => true
  | .b x => !x
  | .n x => decide (x = 0)

/-- The `NOT_EQUAL` constant. -/
def NOT_EQUAL : CmpRes := .b true

/-- The `IS_EQUAL_B` constant. -/
def IS_EQUAL_B : CmpRes := .b false

/-- The `IS_SAME` constant. -/
def IS_SAME : CmpRes := .same

/-- The `IS_LT` constant. -/
def IS_LT : CmpRes := .n (-1)

/-- The `IS_EQUAL_N` constant. -/
def IS_EQUAL_N : CmpRes := .n 0

/-- The `IS_GT` constant. -/
def IS_GT : CmpRes := .n 1

/-- A path-segment key: a property name or a numeric index. -/
inductive SegV where
  | s (k : String) : SegV
  | i (k : Int) : SegV
deriving DecidableEq, Repr

/-- One `PathSegment`: the parent's kind together with the key used to reach
the child (see `Diff.makePath`). -/
structure Seg where
  typeOf : String
  segment : SegV
deriving DecidableEq, Repr

/-- A traversal node (`GraphNode`): the value, its `position` within the
parent, the `property` by which the parent reaches it, and the accumulated
root-to-node path, which is exactly what `Diff.makePath` would reconstruct by
climbing `parentNode` links (each child node appends the pair of its parent's
`typeOf` and its own key). -/
structure Elem where
  value : HVal
  position : Option Nat := none
  property : Option SegV := none
  path : List Seg := []
deriving DecidableEq, Repr

/-- A recorded `Change` operation (`AddToLhs` / `RemoveFromLhs` / `EditLhs`). -/
inductive Change where
  | add (path : List Seg) (value : HVal) : Change
  | remove (path : List Seg) : Change
  | edit (path : List Seg) (value : HVal) : Change
deriving DecidableEq, Repr

/-- The mutable comparison context (`CompareContext` / `DiffContext` /
`VisitorContext`): the running result, the search flag and slot used by
`laxArrayOrdering`, the accumulated diff changes, and the visited-reference
list (present exactly when `guardCircularRefs` is enabled). -/
structure Ctx where
  result : Option CmpRes := none
  searching : Bool := false
  searchResult : Option CmpRes := none
  changes : List Change := []
  refs : Option (List HVal) := none
deriving DecidableEq, Repr

/-- The two consumers of the dual comparator: `Equal` and `Diff` (each
overrides the `notEqual` / `noLhs` / `noRhs` hooks of `Compare`). -/
inductive Mode where
  | equalM : Mode
  | diffM : Mode
deriving DecidableEq, Repr

/-- The recognized options (`CompareOptions` / `VisitorOptions`).
`looseEquality` is fixed to false in this embedding (no analysed claim enables
it) and the Map/Set ordering options do not arise in the modelled universe. -/
structure Opts where
  epsilon : Option ℚ := none
  laxArrayOrdering : Bool := false
  guardCircularRefs : Bool := false
deriving Repr

/-- Failures: running out of fuel (the model's stand-in for nontermination)
and the JS `TypeError` raised by reading a property of `undefined`. -/
inductive Err where
  | fuelOut : Err
  | typeError : Err
deriving DecidableEq, Repr

deriving instance DecidableEq for Except

/-- The value returned by a visit/compare call: a boolean (`false` = done with
children, `true` = keep going) or a node, which aborts visitation. -/
inductive VRes where
  | b (x : Bool) : VRes
  | node (e : Elem) : VRes
deriving DecidableEq, Repr

/-- Result type of the comparison machinery. -/
abbrev CResult := Except Err (VRes × Ctx)

/-- Model of `Compare.areEqual` (not overridden by `Equal` or `Diff`): record
the outcome in the search slot or the main result, first writer wins, and do
not descend further. -/
def areEqualH (ctx : Ctx) (cmp : CmpRes) : VRes × Ctx :=
  if ctx.searching then
    (.b false, if ctx.searchResult = none then { ctx with searchResult := some cmp } else ctx)
  else if ctx.result = none then (.b false, { ctx with result := some cmp })
  else (.b false, ctx)

/-- Model of `Compare.notEqual` and the `Diff.notEqual` override: `Equal`
records the outcome and returns the lhs node (aborting visitation); `Diff`
additionally pushes an `EditLhs` change (outside a search) and returns true so
visitation continues. -/
def notEqualH (M : Mode) (lhs rhs : Elem) (cmp : CmpRes) (ctx : Ctx) : VRes × Ctx :=
  match M with
  | .equalM =>
    if ctx.searching then (.node lhs, { ctx with searchResult := some cmp })
    else (.node lhs, { ctx with result := some cmp })
  | .diffM =>
    if ctx.searching then (.b true, { ctx with searchResult := some cmp })
    else (.b true, { ctx with changes := ctx.changes ++ [.edit rhs.path rhs.value], result := some cmp })

/-- Model of `Diff.createAdd`: build the path of the added node and, when the
terminal segment's parent kind is `array`, encode the index as the negative
splice marker `-segment - 1`.  On an empty path the source reads
`path[path.length - 1].typeOf`, i.e. a property of `undefined`: a TypeError. -/
def createAddH (rhs : Elem) : Except Err Change :=
  match rhs.path.getLast? with
  | none => .error .typeError
  | some lastSeg =>
    if lastSeg.typeOf = "array" then
      let seg2 : SegV :=
        match lastSeg.segment with
        | .i k => .i (-k - 1)
        | .s s => .s s
      .ok (.add (rhs.path.dropLast ++ [{ lastSeg with segment := seg2 }]) rhs.value)
    else .ok (.add rhs.path rhs.value)

/-- Model of `Compare.noLhs` and the `Diff.noLhs` override: `Equal` records
`NOT_EQUAL` and aborts; `Diff` pushes an `AddToLhs` change (outside a search)
and continues.  `Diff.createAdd` can raise a TypeError at the root. -/
def noLhsH (M : Mode) (rhs : Elem) (ctx : Ctx) : CResult :=
  match M with
  | .equalM =>
    if ctx.searching then .ok (.node rhs, { ctx with searchResult := some NOT_EQUAL })
    else .ok (.node rhs, { ctx with result := some NOT_EQUAL })
  | .diffM =>
    if ctx.searching then .ok (.b true, { ctx with searchResult := some NOT_EQUAL })
    else do
      let c ← createAddH rhs
      .ok (.b true, { ctx with changes := ctx.changes ++ [c], result := some NOT_EQUAL })

/-- Model of `Compare.noRhs` and the `Diff.noRhs` override: `Equal` records
`NOT_EQUAL` and aborts; `Diff` pushes a `RemoveFromLhs` change (outside a
search) and continues. -/
def noRhsH (M : Mode) (lhs : Elem) (ctx : Ctx) : VRes × Ctx :=
  match M with
  | .equalM =>
    if ctx.searching then (.node lhs, { ctx with searchResult := some NOT_EQUAL })
    else (.node lhs, { ctx with result := some NOT_EQUAL })
  | .diffM =>
    if ctx.searching then (.b true, { ctx with searchResult := some NOT_EQUAL })
    else (.b true, { ctx with changes := ctx.changes ++ [.remove lhs.path], result := some NOT_EQUAL })

/-- Model of `Visitor.hasReference` / `indexOfReference`: a value counts as
already visited when the reference list exists, the value is truthy, and some
entry is `Object.is`-identical to it. -/
def hasReferenceC (ctx : Ctx) (v : HVal) : Bool :=
  match ctx.refs with
  | some rl => truthy v && rl.contains v
  | none => false

/-- Model of `Visitor.addReference` guarded by `guardCircularRefs`: push the
value onto the visited-reference list when tracking is on. -/
def addRefC (guard : Bool) (ctx : Ctx) (v : HVal) : Ctx :=
  if guard then
    match ctx.refs with
    | some rl => if truthy v then { ctx with refs := some (rl ++ [v]) } else ctx
    | none => ctx
  else ctx

/-- Underlying number of a number-kind value (only applied to number kinds). -/
def numOf : HVal → JNum
  | .num n => n
  | _ => .nan

/-- Underlying string of a string-kind value (only applied to string kinds). -/
def strOf : HVal → String
  | .str s => s
  | _ => ""

/-- Model of `Compare.visitOther`, the leaf comparison.  The number case is a
faithful translation of the source's sequence of non-chained assignments: the
NaN check and the epsilon check each assign `result`, and then the final
`if (lhs < rhs) ... else ...` assigns it again unconditionally, discarding
whatever the earlier checks stored. -/
def visitOtherF (M : Mode) (O : Opts) (H : Heap) (l r : Elem) (ctx : Ctx) : VRes × Ctx :=
  let result : CmpRes :=
    match typeOfV H r.value with
    | "string" => .n (localeCompare (strOf l.value) (strOf r.value))
    | "number" =>
      let e : ℚ := O.epsilon.getD NUMBER_EPSILON
      let lv := numOf l.value
      let rv := numOf r.value
      let res : Option CmpRes := none
      let res := if lv.isNaN || rv.isNaN then some IS_EQUAL_B else res
      let res := if JNum.lt (JNum.abs (JNum.sub lv rv)) (.fin e) then some IS_EQUAL_N else res
      let res := if JNum.lt lv rv then some IS_LT else some IS_GT
      res.getD IS_GT
    | _ =>
      if objectIs l.value r.value then IS_SAME
      else if strictEq l.value r.value then IS_EQUAL_B
      else NOT_EQUAL
  if isEqualRes result then areEqualH ctx result
  else notEqualH M l r result ctx

/-- Model of `Compare.createObjectPropertyNode` for one side: the child node
for property `p` of object node `parent`, with undefined position (property
order never affects object equality) and the extended path. -/
def objChild (H : Heap) (parent : Elem) (p : String) : Elem :=
  { value := objGetH H parent.value p
    position := none
    property := some (.s p)
    path := parent.path ++ [⟨typeOfV H parent.value, .s p⟩] }

/-- The loop of `Compare.visitObject` over properties missing from the rhs:
report each through `noRhs`, aborting if the hook returns a node. -/
def remPropsLoop (M : Mode) (H : Heap) (l : Elem) : List String → Ctx → Option Elem × Ctx
  | [], ctx => (none, ctx)
  | p :: rest, ctx =>
    let (res, ctx') := noRhsH M (objChild H l p) ctx
    match res with
    | .node e => (some e, ctx')
    | .b _ => remPropsLoop M H l rest ctx'

/-- The loop of `Compare.visitObject` over properties missing from the lhs:
report each through `noLhs`, aborting if the hook returns a node. -/
def addPropsLoop (M : Mode) (H : Heap) (r : Elem) : List String → Ctx → Except Err (Option Elem × Ctx)
  | [], ctx => .ok (none, ctx)
  | p :: rest, ctx => do
    let (res, ctx') ← noLhsH M (objChild H r p) ctx
    match res with
    | .node e => .ok (some e, ctx')
    | .b _ => addPropsLoop M H r rest ctx'

/-- The loop of `Compare.visitObject` over shared properties: compare the two
child nodes, aborting if the comparison returns a node. -/
def sharedPropsLoop (cmp : Option Elem → Option Elem → Ctx → CResult) (H : Heap) (l r : Elem) :
    List String → Ctx → Except Err (Option Elem × Ctx)
  | [], ctx => .ok (none, ctx)
  | p :: rest, ctx => do
    let (res, ctx') ← cmp (some (objChild H l p)) (some (objChild H r p)) ctx
    match res with
    | .node e => .ok (some e, ctx')
    | .b _ => sharedPropsLoop cmp H l r rest ctx'

/-- Model of `Compare.visitObject`: split the two key sets into removed, added
and shared, report the first two through `noRhs`/`noLhs`, compare the shared
pairs, and report the children as handled (`false`). -/
def visitObjectGen (cmp : Option Elem → Option Elem → Ctx → CResult) (M : Mode) (H : Heap)
    (l r : Elem) (ctx : Ctx) : CResult := do
  let lProps := objPropsH H l.value
  let rProps := objPropsH H r.value
  let shared := lProps.filter (fun x => rProps.contains x)
  let removed := lProps.filter (fun x => !(rProps.contains x))
  let added := rProps.filter (fun x => !(lProps.contains x))
  let (ab, ctx1) := remPropsLoop M H l removed ctx
  match ab with
  | some e => .ok (.node e, ctx1)
  | none => do
    let (ab, ctx2) ← addPropsLoop M H r added ctx1
    match ab with
    | some e => .ok (.node e, ctx2)
    | none => do
      let (ab, ctx3) ← sharedPropsLoop cmp H l r shared ctx2
      match ab with
      | some e => .ok (.node e, ctx3)
      | none => .ok (.b false, ctx3)

/-- Structural map-with-index (kernel-evaluable). -/
def mapWithIdxAux (f : Nat → α → β) : Nat → List α → List β
  | _, [] => []
  | i, a :: t => f i a :: mapWithIdxAux f (i + 1) t

/-- Map a function over a list together with element indices. -/
def mapWithIdx (f : Nat → α → β) (l : List α) : List β := mapWithIdxAux f 0 l

/-- Pair every list element with its index. -/
def enumIdx (l : List α) : List (Nat × α) := mapWithIdx (fun i a => (i, a)) l

/-- Structural insertion into a sorted list (kernel-evaluable). -/
def insertSorted (le : α → α → Bool) (a : α) : List α → List α
  | [] => [a]
  | b :: t => if le a b then a :: b :: t else b :: insertSorted le a t

/-- Structural sort by a boolean comparator (kernel-evaluable).  The sort in
`Compare.visitArray` is applied to match records with pairwise distinct keys,
so any comparator-correct sort produces the source's order. -/
def sortBy (le : α → α → Bool) : List α → List α
  | [] => []
  | a :: t => insertSorted le a (sortBy le t)

/-- Array element nodes as built inside `Compare.visitArray` via the base
`createArrayElementNode`: property is the index, position is the index in
strict mode and undefined under `laxArrayOrdering`. -/
def mkArrayElems (O : Opts) (H : Heap) (parent : Elem) (vs : List HVal) : List Elem :=
  mapWithIdx (fun i v =>
    { value := v
      position := if O.laxArrayOrdering then none else some i
      property := some (.i (i : Int))
      path := parent.path ++ [⟨typeOfV H parent.value, .i (i : Int)⟩] }) vs

/-- The strict-mode loop of `Compare.visitArray`: compare element pairs at the
given indices (out-of-range lookups are the absent side), aborting if a
comparison returns a node. -/
def strictPairsLoop (cmp : Option Elem → Option Elem → Ctx → CResult)
    (lE rE : List Elem) : List Nat → Ctx → Except Err (Option Elem × Ctx)
  | [], ctx => .ok (none, ctx)
  | i :: rest, ctx => do
    let (res, ctx') ← cmp (lE.get? i) (rE.get? i) ctx
    match res with
    | .node e => .ok (some e, ctx')
    | .b _ => strictPairsLoop cmp lE rE rest ctx'

/-- One lax-mode match record (`ArrayMatch`). -/
structure ArrayMatch where
  lhIdx : Int
  rhIdx : Int
deriving DecidableEq, Repr

/-- Numeric content of an element's property (array element properties are
always numeric indices). -/
def segIntOf : Option SegV → Int
  | some (.i k) => k
  | _ => -1

/-- The match test of `Compare.findIndexOf`: the recorded search outcome
exists and signifies equality
(`typeof ctx.searchResult !== 'undefined' && IS_EQUAL(ctx.searchResult)`). -/
def searchHit : Option CmpRes → Bool
  | some v => isEqualRes v
  | none => false

/-- The candidate scan inside `Compare.findIndexOf`: for each same-typed
candidate, run the comparison in search mode (saving and restoring the
`searching` flag and the search-result slot around it) and accept the first
candidate whose recorded search outcome signifies equality. -/
def findLoop (cmp : Option Elem → Option Elem → Ctx → CResult) (elem : Elem) :
    List Elem → Ctx → Except Err (Option Elem × Ctx)
  | [], ctx => .ok (none, ctx)
  | p :: rest, ctx => do
    let prevSearching := ctx.searching
    let prevResult := ctx.searchResult
    let ctx1 := { ctx with searchResult := none, searching := true }
    let (_, ctx2) ← cmp (some elem) (some p) ctx1
    let isMatch := searchHit ctx2.searchResult
    let ctx3 := { ctx2 with searchResult := prevResult, searching := prevSearching }
    if isMatch then .ok (some p, ctx3) else findLoop cmp elem rest ctx3

/-- Model of `Compare.findIndexOf`: restrict to candidates of the same type
whose slot is not already consumed, scan them for a search-equal one, and on
success record the consumed slot and return its index, else return -1. -/
def findIndexOfGen (cmp : Option Elem → Option Elem → Ctx → CResult) (H : Heap) (elem : Elem)
    (arr : List Elem) (consumedIdx : List (Option SegV)) (ctx : Ctx) :
    Except Err (Int × List (Option SegV) × Ctx) := do
  let sameType := arr.filter (fun x =>
    typeOfV H x.value = typeOfV H elem.value && !(consumedIdx.contains x.property))
  if sameType.length = 0 then .ok (-1, consumedIdx, ctx)
  else do
    let (found, ctx') ← findLoop cmp elem sameType ctx
    match found with
    | some f => .ok (segIntOf f.property, consumedIdx ++ [f.property], ctx')
    | none => .ok (-1, consumedIdx, ctx')

/-- The lax-mode matching loop of `Compare.visitArray`: for each lhs element in
index order, search the unconsumed rhs elements; collect shared and removed
match records and the consumed rhs slots. -/
def laxMatchLoop
    (fio : Elem → List Elem → List (Option SegV) → Ctx → Except Err (Int × List (Option SegV) × Ctx))
    (rE : List Elem) :
    List (Nat × Elem) → List ArrayMatch × List ArrayMatch × List (Option SegV) × Ctx →
    Except Err (List ArrayMatch × List ArrayMatch × List (Option SegV) × Ctx)
  | [], st => .ok st
  | (i, le) :: rest, (shared, removed, consumed, ctx) => do
    let (rhIdx, consumed', ctx') ← fio le rE consumed ctx
    if rhIdx < 0 then
      laxMatchLoop fio rE rest (shared, removed ++ [⟨(i : Int), -1⟩], consumed', ctx')
    else
      laxMatchLoop fio rE rest (shared ++ [⟨(i : Int), rhIdx⟩], removed, consumed', ctx')

/-- The added-element records of lax mode: rhs indices whose slot was never
consumed, collected in ascending order (guarded, as in the source, by the
consumed count being short of the rhs length). -/
def laxAdded (rhsLen : Nat) (consumed : List (Option SegV)) : List ArrayMatch :=
  if consumed.length < rhsLen then
    ((List.range rhsLen).filter (fun i => !(consumed.contains (some (.i (i : Int)))))).map
      (fun i => ⟨-1, (i : Int)⟩)
  else []

/-- Element lookup by a (nonnegative) match index; out-of-range gives the
JS-undefined node. -/
def elemAtInt (es : List Elem) (k : Int) : Elem :=
  (es.get? k.toNat).getD { value := .undef }

/-- The lax-mode re-comparison loop over shared pairs (descending lhs index):
these comparisons record the equal outcomes and should produce no changes. -/
def laxSharedLoop (cmp : Option Elem → Option Elem → Ctx → CResult) (lE rE : List Elem) :
    List ArrayMatch → Ctx → Except Err (Option Elem × Ctx)
  | [], ctx => .ok (none, ctx)
  | am :: rest, ctx => do
    let (res, ctx') ← cmp (some (elemAtInt lE am.lhIdx)) (some (elemAtInt rE am.rhIdx)) ctx
    match res with
    | .node e => .ok (some e, ctx')
    | .b _ => laxSharedLoop cmp lE rE rest ctx'

/-- The lax-mode removal loop (descending lhs index): report each unmatched
lhs element through `noRhs`. -/
def laxRemovedLoop (M : Mode) (lE : List Elem) : List ArrayMatch → Ctx → Option Elem × Ctx
  | [], ctx => (none, ctx)
  | am :: rest, ctx =>
    let (res, ctx') := noRhsH M (elemAtInt lE am.lhIdx) ctx
    match res with
    | .node e => (some e, ctx')
    | .b _ => laxRemovedLoop M lE rest ctx'

/-- The lax-mode addition loop (ascending rhs index): report each unconsumed
rhs element through `noLhs`. -/
def laxAddedLoop (M : Mode) (rE : List Elem) : List ArrayMatch → Ctx → Except Err (Option Elem × Ctx)
  | [], ctx => .ok (none, ctx)
  | am :: rest, ctx => do
    let (res, ctx') ← noLhsH M (elemAtInt rE am.rhIdx) ctx
    match res with
    | .node e => .ok (some e, ctx')
    | .b _ => laxAddedLoop M rE rest ctx'

/-- Model of `Compare.visitArray`.  Strict mode compares index pairs from the
tail of the longer array backward.  Lax mode first-fit consumedIdx each lhs
element against unconsumed rhs elements, then re-compares shared pairs in
descending lhs order, reports removals in descending lhs order, and reports
additions in ascending rhs order. -/
def visitArrayGen (cmp : Option Elem → Option Elem → Ctx → CResult) (M : Mode) (O : Opts)
    (H : Heap) (l r : Elem) (ctx : Ctx) : CResult := do
  let rE := mkArrayElems O H r (arrElemsH H r.value)
  let lE := mkArrayElems O H l (arrElemsH H l.value)
  if O.laxArrayOrdering then do
    let (shared, removed, consumed, ctx1) ← laxMatchLoop (findIndexOfGen cmp H) rE (enumIdx lE)
      ([], [], [], ctx)
    let added := laxAdded rE.length consumed
    let sharedSorted := sortBy (fun a b => decide (b.lhIdx ≤ a.lhIdx)) shared
    let (ab, ctx2) ← laxSharedLoop cmp lE rE sharedSorted ctx1
    match ab with
    | some e => .ok (.node e, ctx2)
    | none => do
      let removedSorted := sortBy (fun a b => decide (b.lhIdx ≤ a.lhIdx)) removed
      let (ab, ctx3) := laxRemovedLoop M lE removedSorted ctx2
      match ab with
      | some e => .ok (.node e, ctx3)
      | none => do
        let addedSorted := sortBy (fun a b => decide (a.rhIdx ≤ b.rhIdx)) added
        let (ab, ctx4) ← laxAddedLoop M rE addedSorted ctx3
        match ab with
        | some e => .ok (.node e, ctx4)
        | none => .ok (.b false, ctx4)
  else do
    let longest := if lE.length > rE.length then lE.length else rE.length
    let (ab, ctx1) ← strictPairsLoop cmp lE rE (List.range longest).reverse ctx
    match ab with
    | some e => .ok (.node e, ctx1)
    | none => .ok (.b false, ctx1)

/-- Model of `Visitor.visit` as entered from `Compare.compare` via
`super.visit`: decline to descend into an already-visited value, then dispatch
on the node's kind, registering container values first when the circular
guard is on. -/
def superVisitGen (cmp : Option Elem → Option Elem → Ctx → CResult) (M : Mode) (O : Opts)
    (H : Heap) (l r : Elem) (ctx : Ctx) : CResult :=
  if hasReferenceC ctx r.value then .ok (.b false, ctx)
  else
    match typeOfV H r.value with
    | "array" => visitArrayGen cmp M O H l r (addRefC O.guardCircularRefs ctx r.value)
    | "object" => visitObjectGen cmp M H l r (addRefC O.guardCircularRefs ctx r.value)
    | _ => .ok (visitOtherF M O H l r ctx)

/-- Model of `Compare.compare`, fuel-indexed: absent-side handling, the
position constraint, the `Object.is` identity shortcut, kind classification,
and dispatch to the kind-specific visit for matching kinds, with the
undefined kinds standing in for an absent side. -/
def compareF (M : Mode) (O : Opts) (H : Heap) : Nat → Option Elem → Option Elem → Ctx → CResult
  | 0, _, _, _ => .error .fuelOut
  | _ + 1, none, some r, ctx => noLhsH M r ctx
  | _ + 1, none, none, ctx => .ok (areEqualH ctx IS_SAME)
  | _ + 1, some l, none, ctx => .ok (noRhsH M l ctx)
  | fuel + 1, some l, some r, ctx =>
    if l.position ≠ r.position then .ok (notEqualH M l r NOT_EQUAL ctx)
    else if objectIs l.value r.value then .ok (areEqualH ctx IS_SAME)
    else
      let lt := typeOfV H l.value
      let rt := typeOfV H r.value
      if lt = rt then superVisitGen (compareF M O H fuel) M O H l r ctx
      else if lt = "undefined" then noLhsH M r ctx
      else if rt = "undefined" then .ok (noRhsH M l ctx)
      else .ok (notEqualH M l r NOT_EQUAL ctx)

/-- A root node as built by the `Equal.equal` / `Diff.diff` entry points. -/
def rootElem (v : HVal) : Elem := { value := v }

/-- The fresh context of one comparison run (`createContext`): the reference
list exists exactly when `guardCircularRefs` is on. -/
def initCtx (O : Opts) : Ctx :=
  { result := none, searching := false, searchResult := none, changes := []
    refs := if O.guardCircularRefs then some [] else none }

/-- The `findIndexOf` of a `Compare` running at the given fuel (the form used
inside `visitArray`). -/
def findIndexOfF (M : Mode) (O : Opts) (H : Heap) (fuel : Nat) :=
  findIndexOfGen (compareF M O H fuel) H

/-- Model of `Equal.equal`: run the comparison and collapse the recorded
outcome with `IS_EQUAL`; `none` is the `undefined` return of a run that never
recorded an outcome. -/
def equalF (O : Opts) (H : Heap) (fuel : Nat) (l r : HVal) : Except Err (Option Bool) := do
  let (_, ctx) ← compareF .equalM O H fuel (some (rootElem l)) (some (rootElem r)) (initCtx O)
  .ok (ctx.result.map isEqualRes)

/-- Model of `Diff.diff`: run the comparison in diff mode and return the
accumulated changes. -/
def diffF (O : Opts) (H : Heap) (fuel : Nat) (l r : HVal) : Except Err (List Change) := do
  let (_, ctx) ← compareF .diffM O H fuel (some (rootElem l)) (some (rootElem r)) (initCtx O)
  .ok ctx.changes

/-- A copied value (`CopyNode.mirror`): scalars, fresh arrays whose slots are
holes until a child mirror is attached (`new Array(length)`), and fresh plain
objects that start with no own properties. -/
inductive CVal where
  | cundef : CVal
  | cnull : CVal
  | cbool (b : Bool) : CVal
  | cnum (n : JNum) : CVal
  | cstr (s : String) : CVal
  | carr (elems : List (Option CVal)) : CVal
  | cobj (props : List (String × CVal)) : CVal

/-- Model of `defaultCreateCopy`: scalars are reused, an array becomes
`new Array(length)` (all holes), an object becomes an empty same-prototype
object. -/
def defaultCreateCopy (H : Heap) (v : HVal) : CVal :=
  match v with
  | .undef => .cundef
  | .null => .cnull
  | .bool b => .cbool b
  | .num n => .cnum n
  | .str s => .cstr s
  | .ref a =>
    match heapFind H a with
    | some (.arr es) => .carr (List.replicate es.length none)
    | some (.obj _) => .cobj []
    | none => .cobj []

/-- The per-copy context (`CopyContext`): the visited-reference list and the
parallel mirror list, both live exactly when `guardCircularRefs` is on. -/
structure CopySt where
  refs : Option (List HVal) := none
  refMirrors : List (Option CVal) := []

/-- Model of `Visitor.indexOfReference` over the copy context. -/
def indexOfRefC (st : CopySt) (v : HVal) : Int :=
  match st.refs with
  | some rl =>
    if truthy v then
      match rl.findIdx? (fun e => e = v) with
      | some i => (i : Int)
      | none => -1
    else -1
  | none => -1

/-- Model of `Visitor.hasReference` over the copy context. -/
def hasRefCopy (st : CopySt) (v : HVal) : Bool := decide (0 ≤ indexOfRefC st v)

/-- Model of `Visitor.addReference` over the copy context. -/
def addRefCopy (guard : Bool) (st : CopySt) (v : HVal) : CopySt :=
  if guard then
    match st.refs with
    | some rl => if truthy v then { st with refs := some (rl ++ [v]) } else st
    | none => st
  else st

/-- JS sparse-array assignment into `refMirrors[idx]`: pad with holes up to the
index, then store. -/
def setAtPad (l : List (Option CVal)) (i : Nat) (m : CVal) : List (Option CVal) :=
  (l ++ List.replicate (i + 1 - l.length) none).set i (some m)

/-- The mirror-creation part of `Copy.visitNode`: under the guard, look the
value up among the visited references; a fresh reference (or no guard) gets a
fresh base instance, registered parallel to its reference slot; a reference
whose mirror already exists is reused with children skipped.  (That reuse
branch is unreachable in practice because `Visitor.visit` declines revisited
references before `visitNode` runs; the hole fallback inside it is arbitrary.)
Returns the mirror, whether to visit children, and the updated context. -/
def copyVisitNodeCore (guard : Bool) (H : Heap) (v : HVal) (st : CopySt) :
    CVal × Bool × CopySt :=
  if guard then
    let idx := indexOfRefC st v
    if idx < 0 then (defaultCreateCopy H v, true, st)
    else if idx.toNat < st.refMirrors.length then
      ((st.refMirrors.getD idx.toNat none).getD (defaultCreateCopy H v), false, st)
    else
      let m := defaultCreateCopy H v
      (m, true, { st with refMirrors := setAtPad st.refMirrors idx.toNat m })
  else (defaultCreateCopy H v, true, st)

/-- Model of `Copy.AddObjectProperty`: assign the child mirror under the
child's key in the parent mirror (overwrite or append). -/
def addObjectProperty (mir : CVal) (p : String) (m : CVal) : CVal :=
  match mir with
  | .cobj ps =>
    if ps.any (fun q => q.1 = p) then .cobj (ps.map (fun q => if q.1 = p then (p, m) else q))
    else .cobj (ps ++ [(p, m)])
  | c => c

/-- Model of `Copy.AddArrayElement`: store the child mirror at the child's
index in the parent mirror. -/
def addArrayElement (mir : CVal) (i : Nat) (m : CVal) : CVal :=
  match mir with
  | .carr es => .carr (es.set i (some m))
  | c => c

/-- The children loop of the copy traversal over object properties: visit each
child; a child whose visit declined at the reference guard was never given a
mirror, so nothing is attached for it. -/
def copyObjLoop (rec : HVal → CopySt → Option (Option CVal × CopySt)) :
    List (String × HVal) → CVal → CopySt → Option (CVal × CopySt)
  | [], mir, st => some (mir, st)
  | (p, cv) :: rest, mir, st => do
    let (cm, st') ← rec cv st
    let mir' :=
      match cm with
      | some m => addObjectProperty mir p m
      | none => mir
    copyObjLoop rec rest mir' st'

/-- The children loop of the copy traversal over array elements. -/
def copyArrLoop (rec : HVal → CopySt → Option (Option CVal × CopySt)) :
    List (Nat × HVal) → CVal → CopySt → Option (CVal × CopySt)
  | [], mir, st => some (mir, st)
  | (i, cv) :: rest, mir, st => do
    let (cm, st') ← rec cv st
    let mir' :=
      match cm with
      | some m => addArrayElement mir i m
      | none => mir
    copyArrLoop rec rest mir' st'

/-- Model of the copy algorithm's `Visitor.visit` / `Copy.visitNode` pair,
fuel-indexed.  A revisited reference is declined by `visit` before `visitNode`
runs: its result is `none`, meaning no mirror was assigned and the parent
attach (which lives in `visitNode`'s finally block) is skipped.  Otherwise the
base mirror is created, children are visited and attached into it, and the
finished mirror is returned for the parent to attach. -/
def copyVisitF (O : Opts) (H : Heap) : Nat → HVal → CopySt → Option (Option CVal × CopySt)
  | 0, _, _ => none
  | fuel + 1, v, st =>
    if hasRefCopy st v then some (none, st)
    else
      match typeOfV H v with
      | "array" =>
        let st1 := addRefCopy O.guardCircularRefs st v
        let (mir0, doKids, st2) := copyVisitNodeCore O.guardCircularRefs H v st1
        if doKids then do
          let (mir, st3) ← copyArrLoop (copyVisitF O H fuel) (enumIdx (arrElemsH H v)) mir0 st2
          some (some mir, st3)
        else some (some mir0, st2)
      | "object" =>
        let st1 := addRefCopy O.guardCircularRefs st v
        let (mir0, doKids, st2) := copyVisitNodeCore O.guardCircularRefs H v st1
        if doKids then do
          let kids := (objPropsH H v).map (fun p => (p, objGetH H v p))
          let (mir, st3) ← copyObjLoop (copyVisitF O H fuel) kids mir0 st2
          some (some mir, st3)
        else some (some mir0, st2)
      | _ =>
        let (mir0, _, st2) := copyVisitNodeCore O.guardCircularRefs H v st
        some (some mir0, st2)

/-- Model of `Copy.copy`: fresh context, visit the root, return the root's
mirror. -/
def copyF (O : Opts) (H : Heap) (fuel : Nat) (v : HVal) : Option (Option CVal) :=
  let st : CopySt :=
    { refs := if O.guardCircularRefs then some [] else none, refMirrors := [] }
  (copyVisitF O H fuel v st).map Prod.fst

/-- The single-graph traversal context (`VisitorContext`). -/
structure TravSt where
  refs : Option (List HVal) := none
deriving DecidableEq, Repr

/-- Model of `Visitor.hasReference` over the traversal context. -/
def hasRefT (st : TravSt) (v : HVal) : Bool :=
  match st.refs with
  | some rl => truthy v && rl.contains v
  | none => false

/-- Model of `Visitor.addReference` over the traversal context. -/
def addRefT (guard : Bool) (st : TravSt) (v : HVal) : TravSt :=
  if guard then
    match st.refs with
    | some rl => if truthy v then { st with refs := some (rl ++ [v]) } else st
    | none => st
  else st

/-- The children loop of the plain traversal. -/
def travChildren (rec : HVal → TravSt → Option (Bool × TravSt)) :
    List HVal → TravSt → Option (Bool × TravSt)
  | [], st => some (true, st)
  | v :: rest, st => do
    let (_, st') ← rec v st
    travChildren rec rest st'

/-- Model of the plain `Visitor.visit` single-graph traversal (the `Traverse`
algorithm with no callback), fuel-indexed: decline revisited references,
register container values before visiting their children, recurse into
children, and return. -/
def travVisitF (O : Opts) (H : Heap) : Nat → HVal → TravSt → Option (Bool × TravSt)
  | 0, _, _ => none
  | fuel + 1, v, st =>
    if hasRefT st v then some (false, st)
    else
      match typeOfV H v with
      | "array" => travChildren (travVisitF O H fuel) (arrElemsH H v) (addRefT O.guardCircularRefs st v)
      | "object" =>
        travChildren (travVisitF O H fuel)
          ((objPropsH H v).map (fun p => objGetH H v p)) (addRefT O.guardCircularRefs st v)
      | _ => some (true, st)

/-- Model of `Traverse.traverse` with no callback: run the visit from a root
node in a fresh context. -/
def traverseF (O : Opts) (H : Heap) (fuel : Nat) (v : HVal) : Option (Bool × TravSt) :=
  travVisitF O H fuel v { refs := if O.guardCircularRefs then some [] else none }

/-- Replace the container stored at one heap address. -/
def heapSet (H : Heap) (a : Nat) (o : HObj) : Heap :=
  H.map (fun p => if p.1 = a then (a, o) else p)

/-- Modelled from the spec: the patch module (`patch.ts`, with the
`Change.apply` implementations) is not among the provided sources; only its
call sites and the spec describe it.  Per spec §4.6, `RemoveFromLhs.apply`
"deletes the target at `path`"; this model resolves every non-final segment to
the named child and deletes the entry named by the final segment (property
deletion for records, splice for sequences), returning the updated heap. -/
def applyRemoveF (H : Heap) (target : HVal) : List Seg → Option Heap
  | [] => none
  | [seg] =>
    match target with
    | .ref a =>
      match heapFind H a, seg.segment with
      | some (.obj ps), .s k => some (heapSet H a (.obj (ps.filter (fun p => !(p.1 = k)))))
      | some (.arr es), .i k => some (heapSet H a (.arr (es.take k.toNat ++ es.drop (k.toNat + 1))))
      | _, _ => none
    | _ => none
  | seg :: rest =>
    match seg.segment with
    | .s k => applyRemoveF H (objGetH H target k) rest
    | .i k => applyRemoveF H ((arrElemsH H target).getD k.toNat .undef) rest

/-- Observer for the tail-first emission property: run the same per-index
comparisons in the same order and record, for each index, the chunk of
changes that the comparison of that index pair contributes. -/
def tailFirstChunks (cmp : Option Elem → Option Elem → Ctx → CResult)
    (lE rE : List Elem) : List Nat → Ctx → Except Err (List (List Change) × Ctx)
  | [], ctx => .ok ([], ctx)
  | i :: rest, ctx => do
    let (_, ctx') ← cmp (lE.get? i) (rE.get? i) ctx
    let chunk := ctx'.changes.drop ctx.changes.length
    let (chunks, ctx'') ← tailFirstChunks cmp lE rE rest ctx'
    .ok (chunk :: chunks, ctx'')

/-- Concrete heap for the lax-ordering counterexample: four distinct empty
objects e₁ = addr 1, f = addr 2, g = addr 3, h = addr 4, and
a = `{p: e₁, q: g}` (addr 5), b = `{p: e₁, q: f}` (addr 6),
c = `{p: h, q: f}` (addr 7); addr 8 is the array `[a, b, c]` and addr 9 its
permutation `[b, c, a]`. -/
def heapPermTrio : Heap :=
  [(1, .obj []), (2, .obj []), (3, .obj []), (4, .obj []),
   (5, .obj [("p", .ref 1), ("q", .ref 3)]),
   (6, .obj [("p", .ref 1), ("q", .ref 2)]),
   (7, .obj [("p", .ref 4), ("q", .ref 2)]),
   (8, .arr [.ref 5, .ref 6, .ref 7]),
   (9, .arr [.ref 6, .ref 7, .ref 5])]

/-- Concrete heap for the copy claim: addr 0 is `{p: s, q: s}` where both
properties share the same object s = addr 1 (an empty object). -/
def heapShared : Heap := [(0, .obj [("p", .ref 1), ("q", .ref 1)]), (1, .obj [])]

/-- Concrete heap for the diff/apply round trip: addr 1 is A = `{a: 1}`,
addr 2 is B = `{a: undefined}`, and addr 3 is a structural copy of A. -/
def heapUndefProp : Heap :=
  [(1, .obj [("a", .num (.fin 1))]), (2, .obj [("a", .undef)]),
   (3, .obj [("a", .num (.fin 1))])]

/-- The heap `heapUndefProp` after removing property `a` from the copy at
addr 3. -/
def heapUndefPropAfter : Heap :=
  [(1, .obj [("a", .num (.fin 1))]), (2, .obj [("a", .undef)]), (3, .obj [])]

/-- Concrete heap with two arrays differing at both indices: addr 1 is
`[1, 2]` and addr 2 is `[2, 3]`. -/
def heapTwoArrays : Heap :=
  [(1, .arr [.num (.fin 1), .num (.fin 2)]), (2, .arr [.num (.fin 2), .num (.fin 3)])]

/-- Concrete cyclic heap: two structurally equal self-referential objects
`a = {self: a, x: 1}` (addr 0) and `b = {self: b, x: 1}` (addr 1). -/
def heapCyc2 : Heap :=
  [(0, .obj [("self", .ref 0), ("x", .num (.fin 1))]),
   (1, .obj [("self", .ref 1), ("x", .num (.fin 1))])]

/-- Frame property of a comparison function during a search: with the search
flag set, a successful run leaves the main result, the change list and the
search flag untouched (outcomes go only to the search-result slot). -/
def SearchFrame (cmp : Option Elem → Option Elem → Ctx → CResult) : Prop :=
  ∀ l r ctx res ctx', ctx.searching = true → cmp l r ctx = .ok (res, ctx') →
    ctx'.result = ctx.result ∧ ctx'.changes = ctx.changes ∧ ctx'.searching = true

/-- Step property of a diff-mode comparison: a successful run returns a
boolean (never the aborting node of equal mode), and it only ever appends to
the accumulated change list. -/
def DiffStep (cmp : Option Elem → Option Elem → Ctx → CResult) : Prop :=
  ∀ l r ctx res ctx', cmp l r ctx = .ok (res, ctx') →
    (∃ bl, res = VRes.b bl) ∧ ∃ δ, ctx'.changes = ctx.changes ++ δ

/-- The addresses bound in a heap: the population of container identities an
object graph over that heap can reach. -/
def heapDom (H : Heap) : List Nat := H.map Prod.fst

/-- The number of heap addresses whose reference value is not yet on the
visited list: the decreasing measure behind the circular-reference guard. -/
def uncovered (H : Heap) (rl : List HVal) : Nat :=
  (heapDom H).countP (fun a => !(rl.contains (HVal.ref a)))

/-- refs-monotonicity of a traversal step: a successful call only ever appends
to an existing visited list. -/
def TravMono (rec : HVal → TravSt → Option (Bool × TravSt)) : Prop :=
  ∀ v st r st', rec v st = some (r, st') →
    ∀ rl, st.refs = some rl → ∃ ext, st'.refs = some (rl ++ ext)

/-- refs-monotonicity of a comparison step: a successful call only ever
appends to an existing visited list. -/
def CmpMono (cmp : Option Elem → Option Elem → Ctx → CResult) : Prop :=
  ∀ l r ctx res ctx', cmp l r ctx = .ok (res, ctx') →
    ∀ rl, ctx.refs = some rl → ∃ ext, ctx'.refs = some (rl ++ ext)

/-- Fuel-sufficiency of a comparison step on every state whose visited list
satisfies the bound `P`: such a call never exhausts its fuel. -/
def CmpNoFuelOut (P : List HVal → Prop) (cmp : Option Elem → Option Elem → Ctx → CResult) :
    Prop :=
  ∀ l r ctx rl, ctx.refs = some rl → P rl → cmp l r ctx ≠ .error .fuelOut

/-- C2: comparing a value against itself short-circuits on the `Object.is`
identity check with the `IS_SAME` outcome; hence `equal(G, G)` is true and
`diff(G, G)` records no changes, for every value `G` and any positive fuel. -/
theorem equal_diff_self_identity (H : Heap) (G : HVal) (f : Nat) :
    compareF .equalM {} H (f + 1) (some (rootElem G)) (some (rootElem G)) (initCtx {}) =
      .ok (.b false, { initCtx {} with result := some IS_SAME }) ∧
    equalF {} H (f + 1) G G = .ok (some true) ∧
    diffF {} H (f + 1) G G = .ok [] := by
  refine ⟨?_, ?_, ?_⟩ <;>
    simp [compareF, equalF, diffF, rootElem, initCtx, objectIs, areEqualH, isEqualRes, IS_SAME,
      Except.bind, bind]

/-- C3, counterexample: comparing the number leaves NaN and 0 does not yield
an equal-but-distinct outcome; `equal` reports false and `diff` reports an
Edit change. -/
theorem nan_vs_number_not_equal_cx :
    equalF {} [] 10 (.num .nan) (.num (.fin 0)) = .ok (some false) ∧
    diffF {} [] 10 (.num .nan) (.num (.fin 0)) = .ok [.edit [] (.num (.fin 0))] :=
  ⟨rfl, rfl⟩

/-- C3, amended: when two number-kind leaves are compared, at least one value
is NaN and the values are not `Object.is`-identical, the recorded outcome is
`IS_GT` (not-equal): the NaN special case's assignment is unconditionally
overwritten by the final magnitude-ordering assignment, whose `lhs < rhs` test
is false against NaN.  (Two NaNs never reach the leaf comparison: they are
`Object.is`-identical and short-circuit as identical.) -/
theorem nan_vs_number_is_gt (lv rv : JNum) (h1 : lv.isNaN || rv.isNaN)
    (h2 : objectIs (.num lv) (.num rv) = false) :
    compareF .equalM {} [] 2 (some (rootElem (.num lv))) (some (rootElem (.num rv)))
      (initCtx {}) =
      .ok (.node (rootElem (.num lv)), { initCtx {} with result := some IS_GT }) ∧
    equalF {} [] 2 (.num lv) (.num rv) = .ok (some false) := by
  have hlt : JNum.lt lv rv = false := by
    cases lv with
    | nan => rfl
    | fin q => cases rv with
      | nan => rfl
      | fin q' => simp [JNum.isNaN] at h1
  have hnan : (lv.isNaN || rv.isNaN) = true := h1
  refine ⟨?_, ?_⟩ <;>
    simp [compareF, equalF, rootElem, initCtx, superVisitGen, hasReferenceC, typeOfV,
      visitOtherF, numOf, hnan, hlt, h2, areEqualH, notEqualH, isEqualRes, IS_GT, IS_EQUAL_B,
      IS_EQUAL_N, IS_LT, Except.bind, bind]

/-- Witness for `nan_vs_number_is_gt` at NaN versus 0. -/
theorem nan_vs_number_is_gt_witness :
    ((JNum.nan.isNaN || (JNum.fin 0).isNaN) = true ∧
      objectIs (.num .nan) (.num (.fin 0)) = false) ∧
    equalF {} [] 2 (.num .nan) (.num (.fin 0)) = .ok (some false) :=
  ⟨⟨rfl, rfl⟩, (nan_vs_number_is_gt .nan (.fin 0) rfl rfl).2⟩

/-- C4: the values 0 and 2⁻⁵³ are not identical and their absolute difference
is strictly below the default epsilon (`Number.EPSILON` = 2⁻⁵²), yet the diff
reports an Edit change: the epsilon check's `IS_EQUAL_N` assignment is
unconditionally overwritten by the magnitude-ordering assignment. -/
theorem epsilon_close_numbers_report_edit :
    objectIs (.num (.fin 0)) (.num (.fin (mkRat 1 (2 ^ 53)))) = false ∧
    JNum.lt (JNum.abs (JNum.sub (.fin 0) (.fin (mkRat 1 (2 ^ 53))))) (.fin NUMBER_EPSILON) =
      true ∧
    diffF {} [] 10 (.num (.fin 0)) (.num (.fin (mkRat 1 (2 ^ 53)))) =
      .ok [.edit [] (.num (.fin (mkRat 1 (2 ^ 53))))] :=
  ⟨rfl, rfl, rfl⟩

/-- C5: the array at addr 9 is a permutation of the array at addr 8 (same
element references, reordered), yet the lax-ordering diff is not empty: it
reports a removal and an insertion.  The lhs element c finds no match because
its search comparisons against the remaining candidate record no outcome at
all (every leaf pair is a pair of distinct empty objects), and the first-fit
consumption of b and then c by earlier elements leaves only that candidate. -/
theorem lax_permutation_diff_nonempty :
    (arrElemsH heapPermTrio (.ref 8)).Perm (arrElemsH heapPermTrio (.ref 9)) ∧
    diffF { laxArrayOrdering := true } heapPermTrio 15 (.ref 8) (.ref 9) =
      .ok [.remove [⟨"array", .i 2⟩], .add [⟨"array", .i (-3)⟩] (.ref 5)] :=
  ⟨by decide, by decide⟩

/-- C7: with `guardCircularRefs` enabled, copying `{p: s, q: s}` (where both
properties reference the same empty object) yields a copy with only `p`: the
revisit of s under `q` is declined by `Visitor.visit` before `Copy.visitNode`
could attach the existing clone, so the reference edge is dropped rather than
reattached. -/
theorem copy_guard_drops_shared_reference :
    objPropsH heapShared (.ref 0) = ["p", "q"] ∧
    objGetH heapShared (.ref 0) "p" = objGetH heapShared (.ref 0) "q" ∧
    copyF { guardCircularRefs := true } heapShared 10 (.ref 0) =
      some (some (.cobj [("p", .cobj [])])) :=
  ⟨rfl, rfl, rfl⟩

/-- C10: diffing `undefined` against `5` raises a TypeError instead of
returning a change list: the difference is an addition at the root, and
`Diff.createAdd` reads the terminal segment of the empty path. -/
theorem diff_root_add_type_error :
    diffF {} [] 10 .undef (.num (.fin 5)) = .error .typeError ∧
    createAddH (rootElem (.num (.fin 5))) = .error .typeError :=
  ⟨rfl, rfl⟩

/-- C1: the round trip fails.  A = `{a: 1}` (addr 1), B = `{a: undefined}`
(addr 2), and addr 3 is a structural copy of A (equal to A).  The diff of A
against B is a single Remove of property `a`; applying it to the copy yields
`{}`; but `equal({}, {a: undefined})` is false, so the patched copy is not
equal to B. -/
theorem diff_roundtrip_fails_on_undefined_prop :
    equalF {} heapUndefProp 10 (.ref 1) (.ref 3) = .ok (some true) ∧
    diffF {} heapUndefProp 10 (.ref 1) (.ref 2) =
      .ok [.remove [⟨"object", .s "a"⟩]] ∧
    applyRemoveF heapUndefProp (.ref 3) [⟨"object", .s "a"⟩] = some heapUndefPropAfter ∧
    equalF {} heapUndefPropAfter 10 (.ref 3) (.ref 2) = .ok (some false) :=
  ⟨rfl, rfl, rfl, rfl⟩

theorem areEqualH_searching (ctx : Ctx) (c : CmpRes) (h : ctx.searching = true) :
    areEqualH ctx c =
      (.b false, if ctx.searchResult = none then { ctx with searchResult := some c } else ctx) := by
  simp [areEqualH, h]

theorem notEqualH_searching (M : Mode) (l r : Elem) (c : CmpRes) (ctx : Ctx)
    (h : ctx.searching = true) :
    notEqualH M l r c ctx =
      ((match M with | .equalM => VRes.node l | .diffM => .b true),
        { ctx with searchResult := some c }) := by
  cases M <;> simp [notEqualH, h]

theorem noLhsH_searching (M : Mode) (r : Elem) (ctx : Ctx) (h : ctx.searching = true) :
    noLhsH M r ctx =
      .ok ((match M with | .equalM => VRes.node r | .diffM => .b true),
        { ctx with searchResult := some NOT_EQUAL }) := by
  cases M <;> simp [noLhsH, h]

theorem noRhsH_searching (M : Mode) (l : Elem) (ctx : Ctx) (h : ctx.searching = true) :
    noRhsH M l ctx =
      ((match M with | .equalM => VRes.node l | .diffM => .b true),
        { ctx with searchResult := some NOT_EQUAL }) := by
  cases M <;> simp [noRhsH, h]

theorem remPropsLoop_frame (M : Mode) (H : Heap) (l : Elem) :
    ∀ (ps : List String) (ctx : Ctx) (ab : Option Elem) (ctx' : Ctx),
      ctx.searching = true → remPropsLoop M H l ps ctx = (ab, ctx') →
      ctx'.result = ctx.result ∧ ctx'.changes = ctx.changes ∧ ctx'.searching = true := by
  intro ps
  induction ps with
  | nil =>
    intro ctx ab ctx' hs h
    simp only [remPropsLoop] at h
    cases h
    exact ⟨rfl, rfl, hs⟩
  | cons p rest ih =>
    intro ctx ab ctx' hs h
    cases M with
    | equalM =>
      simp only [remPropsLoop, noRhsH, hs, if_true] at h
      cases h
      exact ⟨rfl, rfl, rfl⟩
    | diffM =>
      simp only [remPropsLoop, noRhsH, hs, if_true] at h
      exact ih { ctx with searching := true, searchResult := some NOT_EQUAL } ab ctx' rfl h

theorem addPropsLoop_frame (M : Mode) (H : Heap) (r : Elem) :
    ∀ (ps : List String) (ctx : Ctx) (ab : Option Elem) (ctx' : Ctx),
      ctx.searching = true → addPropsLoop M H r ps ctx = .ok (ab, ctx') →
      ctx'.result = ctx.result ∧ ctx'.changes = ctx.changes ∧ ctx'.searching = true := by
  intro ps
  induction ps with
  | nil =>
    intro ctx ab ctx' hs h
    simp only [addPropsLoop] at h
    cases h
    exact ⟨rfl, rfl, hs⟩
  | cons p rest ih =>
    intro ctx ab ctx' hs h
    cases M with
    | equalM =>
      simp only [addPropsLoop, noLhsH, hs, if_true, bind, Except.bind] at h
      cases h
      exact ⟨rfl, rfl, rfl⟩
    | diffM =>
      simp only [addPropsLoop, noLhsH, hs, if_true, bind, Except.bind] at h
      exact ih { ctx with searching := true, searchResult := some NOT_EQUAL } ab ctx' rfl h

theorem sharedPropsLoop_frame (cmp : Option Elem → Option Elem → Ctx → CResult)
    (hcmp : SearchFrame cmp) (H : Heap) (l r : Elem) :
    ∀ (ps : List String) (ctx : Ctx) (ab : Option Elem) (ctx' : Ctx),
      ctx.searching = true → sharedPropsLoop cmp H l r ps ctx = .ok (ab, ctx') →
      ctx'.result = ctx.result ∧ ctx'.changes = ctx.changes ∧ ctx'.searching = true := by
  intro ps
  induction ps with
  | nil =>
    intro ctx ab ctx' hs h
    simp only [sharedPropsLoop] at h
    cases h
    exact ⟨rfl, rfl, hs⟩
  | cons p rest ih =>
    intro ctx ab ctx' hs h
    simp only [sharedPropsLoop, bind, Except.bind] at h
    cases hc : cmp (some (objChild H l p)) (some (objChild H r p)) ctx with
    | error e => rw [hc] at h; cases h
    | ok out =>
      rw [hc] at h
      obtain ⟨res1, ctx1⟩ := out
      have hf := hcmp _ _ _ _ _ hs hc
      cases res1 with
      | node e =>
        cases h
        exact hf
      | b bl =>
        have := ih ctx1 ab ctx' hf.2.2 h
        exact ⟨this.1.trans hf.1, this.2.1.trans hf.2.1, this.2.2⟩

theorem strictPairsLoop_frame (cmp : Option Elem → Option Elem → Ctx → CResult)
    (hcmp : SearchFrame cmp) (lE rE : List Elem) :
    ∀ (idxs : List Nat) (ctx : Ctx) (ab : Option Elem) (ctx' : Ctx),
      ctx.searching = true → strictPairsLoop cmp lE rE idxs ctx = .ok (ab, ctx') →
      ctx'.result = ctx.result ∧ ctx'.changes = ctx.changes ∧ ctx'.searching = true := by
  intro idxs
  induction idxs with
  | nil =>
    intro ctx ab ctx' hs h
    simp only [strictPairsLoop] at h
    cases h
    exact ⟨rfl, rfl, hs⟩
  | cons i rest ih =>
    intro ctx ab ctx' hs h
    simp only [strictPairsLoop, bind, Except.bind] at h
    cases hc : cmp (lE.get? i) (rE.get? i) ctx with
    | error e => rw [hc] at h; cases h
    | ok out =>
      rw [hc] at h
      obtain ⟨res1, ctx1⟩ := out
      have hf := hcmp _ _ _ _ _ hs hc
      cases res1 with
      | node e =>
        cases h
        exact hf
      | b bl =>
        have := ih ctx1 ab ctx' hf.2.2 h
        exact ⟨this.1.trans hf.1, this.2.1.trans hf.2.1, this.2.2⟩

theorem findLoop_restore (cmp : Option Elem → Option Elem → Ctx → CResult)
    (hcmp : SearchFrame cmp) (elem : Elem) :
    ∀ (cands : List Elem) (ctx : Ctx) (found : Option Elem) (ctx' : Ctx),
      findLoop cmp elem cands ctx = .ok (found, ctx') →
      ctx'.result = ctx.result ∧ ctx'.changes = ctx.changes ∧
      ctx'.searching = ctx.searching ∧ ctx'.searchResult = ctx.searchResult := by
  intro cands
  induction cands with
  | nil =>
    intro ctx found ctx' h
    simp only [findLoop] at h
    cases h
    exact ⟨rfl, rfl, rfl, rfl⟩
  | cons p rest ih =>
    intro ctx found ctx' h
    simp only [findLoop, bind, Except.bind] at h
    cases hc : cmp (some elem) (some p) { ctx with searchResult := none, searching := true } with
    | error e => rw [hc] at h; cases h
    | ok out =>
      rw [hc] at h
      obtain ⟨res1, ctx2⟩ := out
      simp only [Except.bind] at h
      have hf := hcmp _ _ _ _ _ rfl hc
      split at h
      · cases h
        exact ⟨hf.1, hf.2.1, rfl, rfl⟩
      · have := ih _ found ctx' h
        exact ⟨this.1.trans hf.1, this.2.1.trans hf.2.1, this.2.2.1, this.2.2.2⟩

theorem findIndexOfGen_restore (cmp : Option Elem → Option Elem → Ctx → CResult)
    (hcmp : SearchFrame cmp) (H : Heap) (elem : Elem) (arr : List Elem)
    (consumedIdx : List (Option SegV)) (ctx : Ctx) (idx : Int)
    (consumed' : List (Option SegV)) (ctx' : Ctx)
    (h : findIndexOfGen cmp H elem arr consumedIdx ctx = .ok (idx, consumed', ctx')) :
    ctx'.result = ctx.result ∧ ctx'.changes = ctx.changes ∧
    ctx'.searching = ctx.searching ∧ ctx'.searchResult = ctx.searchResult := by
  simp only [findIndexOfGen, bind, Except.bind] at h
  by_cases hl :
      (arr.filter (fun x =>
        typeOfV H x.value = typeOfV H elem.value && !(consumedIdx.contains x.property))).length = 0
  · rw [if_pos hl] at h
    cases h
    exact ⟨rfl, rfl, rfl, rfl⟩
  · rw [if_neg hl] at h
    cases hc : findLoop cmp elem
        (arr.filter (fun x =>
          typeOfV H x.value = typeOfV H elem.value && !(consumedIdx.contains x.property))) ctx with
    | error e => rw [hc] at h; cases h
    | ok out =>
      rw [hc] at h
      obtain ⟨found, ctx1⟩ := out
      simp only [Except.bind] at h
      have hf := findLoop_restore cmp hcmp elem _ _ _ _ hc
      cases found with
      | some f =>
        cases h
        exact hf
      | none =>
        cases h
        exact hf

theorem laxMatchLoop_frame (cmp : Option Elem → Option Elem → Ctx → CResult)
    (hcmp : SearchFrame cmp) (H : Heap) (rE : List Elem) :
    ∀ (les : List (Nat × Elem)) (sh0 rm0 : List ArrayMatch) (cons0 : List (Option SegV))
      (ctx : Ctx) (sh rm : List ArrayMatch) (cons1 : List (Option SegV)) (ctx' : Ctx),
      laxMatchLoop (findIndexOfGen cmp H) rE les (sh0, rm0, cons0, ctx) =
        .ok (sh, rm, cons1, ctx') →
      ctx'.result = ctx.result ∧ ctx'.changes = ctx.changes ∧
      ctx'.searching = ctx.searching ∧ ctx'.searchResult = ctx.searchResult := by
  intro les
  induction les with
  | nil =>
    intro sh0 rm0 cons0 ctx sh rm cons1 ctx' h
    simp only [laxMatchLoop] at h
    cases h
    exact ⟨rfl, rfl, rfl, rfl⟩
  | cons hd rest ih =>
    intro sh0 rm0 cons0 ctx sh rm cons1 ctx' h
    obtain ⟨i, le⟩ := hd
    simp only [laxMatchLoop, bind, Except.bind] at h
    cases hfio : findIndexOfGen cmp H le rE cons0 ctx with
    | error e => rw [hfio] at h; cases h
    | ok out =>
      rw [hfio] at h
      obtain ⟨rhIdx, consumed1, ctx1⟩ := out
      simp only [Except.bind] at h
      have hf := findIndexOfGen_restore cmp hcmp H le rE cons0 ctx rhIdx consumed1 ctx1 hfio
      split at h <;>
        exact
          let t := ih _ _ _ ctx1 sh rm cons1 ctx' h
          ⟨t.1.trans hf.1, t.2.1.trans hf.2.1, t.2.2.1.trans hf.2.2.1, t.2.2.2.trans hf.2.2.2⟩

theorem laxSharedLoop_frame (cmp : Option Elem → Option Elem → Ctx → CResult)
    (hcmp : SearchFrame cmp) (lE rE : List Elem) :
    ∀ (ams : List ArrayMatch) (ctx : Ctx) (ab : Option Elem) (ctx' : Ctx),
      ctx.searching = true → laxSharedLoop cmp lE rE ams ctx = .ok (ab, ctx') →
      ctx'.result = ctx.result ∧ ctx'.changes = ctx.changes ∧ ctx'.searching = true := by
  intro ams
  induction ams with
  | nil =>
    intro ctx ab ctx' hs h
    simp only [laxSharedLoop] at h
    cases h
    exact ⟨rfl, rfl, hs⟩
  | cons am rest ih =>
    intro ctx ab ctx' hs h
    simp only [laxSharedLoop, bind, Except.bind] at h
    cases hc : cmp (some (elemAtInt lE am.lhIdx)) (some (elemAtInt rE am.rhIdx)) ctx with
    | error e => rw [hc] at h; cases h
    | ok out =>
      rw [hc] at h
      obtain ⟨res1, ctx1⟩ := out
      have hf := hcmp _ _ _ _ _ hs hc
      cases res1 with
      | node e =>
        cases h
        exact hf
      | b bl =>
        have := ih ctx1 ab ctx' hf.2.2 h
        exact ⟨this.1.trans hf.1, this.2.1.trans hf.2.1, this.2.2⟩

theorem laxRemovedLoop_frame (M : Mode) (lE : List Elem) :
    ∀ (ams : List ArrayMatch) (ctx : Ctx) (ab : Option Elem) (ctx' : Ctx),
      ctx.searching = true → laxRemovedLoop M lE ams ctx = (ab, ctx') →
      ctx'.result = ctx.result ∧ ctx'.changes = ctx.changes ∧ ctx'.searching = true := by
  intro ams
  induction ams with
  | nil =>
    intro ctx ab ctx' hs h
    simp only [laxRemovedLoop] at h
    cases h
    exact ⟨rfl, rfl, hs⟩
  | cons am rest ih =>
    intro ctx ab ctx' hs h
    cases M with
    | equalM =>
      simp only [laxRemovedLoop, noRhsH, hs, if_true] at h
      cases h
      exact ⟨rfl, rfl, rfl⟩
    | diffM =>
      simp only [laxRemovedLoop, noRhsH, hs, if_true] at h
      exact ih { ctx with searching := true, searchResult := some NOT_EQUAL } ab ctx' rfl h

theorem laxAddedLoop_frame (M : Mode) (rE : List Elem) :
    ∀ (ams : List ArrayMatch) (ctx : Ctx) (ab : Option Elem) (ctx' : Ctx),
      ctx.searching = true → laxAddedLoop M rE ams ctx = .ok (ab, ctx') →
      ctx'.result = ctx.result ∧ ctx'.changes = ctx.changes ∧ ctx'.searching = true := by
  intro ams
  induction ams with
  | nil =>
    intro ctx ab ctx' hs h
    simp only [laxAddedLoop] at h
    cases h
    exact ⟨rfl, rfl, hs⟩
  | cons am rest ih =>
    intro ctx ab ctx' hs h
    cases M with
    | equalM =>
      simp only [laxAddedLoop, noLhsH, hs, if_true, bind, Except.bind] at h
      cases h
      exact ⟨rfl, rfl, rfl⟩
    | diffM =>
      simp only [laxAddedLoop, noLhsH, hs, if_true, bind, Except.bind] at h
      exact ih { ctx with searching := true, searchResult := some NOT_EQUAL } ab ctx' rfl h

theorem visitObjectGen_frame (cmp : Option Elem → Option Elem → Ctx → CResult)
    (hcmp : SearchFrame cmp) (M : Mode) (H : Heap) (l r : Elem) (ctx : Ctx)
    (res : VRes) (ctx' : Ctx) (hs : ctx.searching = true)
    (h : visitObjectGen cmp M H l r ctx = .ok (res, ctx')) :
    ctx'.result = ctx.result ∧ ctx'.changes = ctx.changes ∧ ctx'.searching = true := by
  simp only [visitObjectGen, bind, Except.bind] at h
  cases h1 : remPropsLoop M H l
      ((objPropsH H l.value).filter fun x => !(objPropsH H r.value).contains x) ctx with
  | mk ab1 ctx1 =>
    rw [h1] at h
    have hf1 := remPropsLoop_frame M H l _ ctx ab1 ctx1 hs h1
    cases ab1 with
    | some e =>
      simp only at h
      cases h
      exact hf1
    | none =>
      simp only at h
      cases h2 : addPropsLoop M H r
          ((objPropsH H r.value).filter fun x => !(objPropsH H l.value).contains x) ctx1 with
      | error e => rw [h2] at h; cases h
      | ok out2 =>
        rw [h2] at h
        obtain ⟨ab2, ctx2⟩ := out2
        simp only [Except.bind] at h
        have hf2 := addPropsLoop_frame M H r _ ctx1 ab2 ctx2 hf1.2.2 h2
        cases ab2 with
        | some e =>
          cases h
          exact ⟨hf2.1.trans hf1.1, hf2.2.1.trans hf1.2.1, hf2.2.2⟩
        | none =>
          cases h3 : sharedPropsLoop cmp H l r
              ((objPropsH H l.value).filter fun x => (objPropsH H r.value).contains x) ctx2 with
          | error e => rw [h3] at h; cases h
          | ok out3 =>
            rw [h3] at h
            obtain ⟨ab3, ctx3⟩ := out3
            simp only [Except.bind] at h
            have hf3 := sharedPropsLoop_frame cmp hcmp H l r _ ctx2 ab3 ctx3 hf2.2.2 h3
            have frame : ctx3.result = ctx.result ∧ ctx3.changes = ctx.changes ∧
                ctx3.searching = true :=
              ⟨hf3.1.trans (hf2.1.trans hf1.1), hf3.2.1.trans (hf2.2.1.trans hf1.2.1), hf3.2.2⟩
            cases ab3 with
            | some e => cases h; exact frame
            | none => cases h; exact frame

theorem addRefC_frame (g : Bool) (ctx : Ctx) (v : HVal) :
    (addRefC g ctx v).result = ctx.result ∧ (addRefC g ctx v).changes = ctx.changes ∧
    (addRefC g ctx v).searching = ctx.searching ∧
    (addRefC g ctx v).searchResult = ctx.searchResult := by
  unfold addRefC
  split
  · split
    · split <;> exact ⟨rfl, rfl, rfl, rfl⟩
    · exact ⟨rfl, rfl, rfl, rfl⟩
  · exact ⟨rfl, rfl, rfl, rfl⟩

theorem visitArrayGen_frame (cmp : Option Elem → Option Elem → Ctx → CResult)
    (hcmp : SearchFrame cmp) (M : Mode) (O : Opts) (H : Heap) (l r : Elem) (ctx : Ctx)
    (res : VRes) (ctx' : Ctx) (hs : ctx.searching = true)
    (h : visitArrayGen cmp M O H l r ctx = .ok (res, ctx')) :
    ctx'.result = ctx.result ∧ ctx'.changes = ctx.changes ∧ ctx'.searching = true := by
  simp only [visitArrayGen, bind, Except.bind] at h
  by_cases hlax : O.laxArrayOrdering = true
  · rw [if_pos hlax] at h
    cases h1 : laxMatchLoop (findIndexOfGen cmp H) (mkArrayElems O H r (arrElemsH H r.value))
        (enumIdx (mkArrayElems O H l (arrElemsH H l.value))) ([], [], [], ctx) with
    | error e => rw [h1] at h; cases h
    | ok out1 =>
      rw [h1] at h
      obtain ⟨sh, rm, cons1, ctx1⟩ := out1
      simp only [Except.bind] at h
      have hf1 := laxMatchLoop_frame cmp hcmp H _ _ [] [] [] ctx sh rm cons1 ctx1 h1
      have hs1 : ctx1.searching = true := hf1.2.2.1.trans hs
      cases h2 : laxSharedLoop cmp (mkArrayElems O H l (arrElemsH H l.value))
          (mkArrayElems O H r (arrElemsH H r.value))
          (sortBy (fun a b => decide (b.lhIdx ≤ a.lhIdx)) sh) ctx1 with
      | error e => rw [h2] at h; cases h
      | ok out2 =>
        rw [h2] at h
        obtain ⟨ab2, ctx2⟩ := out2
        simp only [Except.bind] at h
        have hf2 := laxSharedLoop_frame cmp hcmp _ _ _ ctx1 ab2 ctx2 hs1 h2
        have fr2 : ctx2.result = ctx.result ∧ ctx2.changes = ctx.changes ∧
            ctx2.searching = true :=
          ⟨hf2.1.trans hf1.1, hf2.2.1.trans hf1.2.1, hf2.2.2⟩
        cases ab2 with
        | some e => cases h; exact fr2
        | none =>
          cases h3 : laxRemovedLoop M (mkArrayElems O H l (arrElemsH H l.value))
              (sortBy (fun a b => decide (b.lhIdx ≤ a.lhIdx)) rm) ctx2 with
          | mk ab3 ctx3 =>
            rw [h3] at h
            have hf3 := laxRemovedLoop_frame M _ _ ctx2 ab3 ctx3 fr2.2.2 h3
            have fr3 : ctx3.result = ctx.result ∧ ctx3.changes = ctx.changes ∧
                ctx3.searching = true :=
              ⟨hf3.1.trans fr2.1, hf3.2.1.trans fr2.2.1, hf3.2.2⟩
            cases ab3 with
            | some e => simp only at h; cases h; exact fr3
            | none =>
              simp only at h
              cases h4 : laxAddedLoop M (mkArrayElems O H r (arrElemsH H r.value))
                  (sortBy (fun a b => decide (a.rhIdx ≤ b.rhIdx))
                    (laxAdded (mkArrayElems O H r (arrElemsH H r.value)).length cons1)) ctx3 with
              | error e => rw [h4] at h; cases h
              | ok out4 =>
                rw [h4] at h
                obtain ⟨ab4, ctx4⟩ := out4
                simp only [Except.bind] at h
                have hf4 := laxAddedLoop_frame M _ _ ctx3 ab4 ctx4 fr3.2.2 h4
                have fr4 : ctx4.result = ctx.result ∧ ctx4.changes = ctx.changes ∧
                    ctx4.searching = true :=
                  ⟨hf4.1.trans fr3.1, hf4.2.1.trans fr3.2.1, hf4.2.2⟩
                cases ab4 with
                | some e => cases h; exact fr4
                | none => cases h; exact fr4
  · rw [if_neg hlax] at h
    cases h1 : strictPairsLoop cmp (mkArrayElems O H l (arrElemsH H l.value))
        (mkArrayElems O H r (arrElemsH H r.value))
        (List.range
          (if (mkArrayElems O H l (arrElemsH H l.value)).length >
              (mkArrayElems O H r (arrElemsH H r.value)).length then
            (mkArrayElems O H l (arrElemsH H l.value)).length
          else (mkArrayElems O H r (arrElemsH H r.value)).length)).reverse ctx with
    | error e => rw [h1] at h; cases h
    | ok out1 =>
      rw [h1] at h
      obtain ⟨ab1, ctx1⟩ := out1
      simp only [Except.bind] at h
      have hf1 := strictPairsLoop_frame cmp hcmp _ _ _ ctx ab1 ctx1 hs h1
      cases ab1 with
      | some e => cases h; exact hf1
      | none => cases h; exact hf1

theorem leafDispatch_frame (M : Mode) (l r : Elem) (ctx : Ctx) (c : CmpRes)
    (hs : ctx.searching = true) :
    ((if isEqualRes c = true then areEqualH ctx c else notEqualH M l r c ctx)).2.result =
      ctx.result ∧
    ((if isEqualRes c = true then areEqualH ctx c else notEqualH M l r c ctx)).2.changes =
      ctx.changes ∧
    ((if isEqualRes c = true then areEqualH ctx c else notEqualH M l r c ctx)).2.searching =
      true := by
  split
  · rw [areEqualH_searching _ _ hs]
    split <;> exact ⟨rfl, rfl, hs⟩
  · rw [notEqualH_searching M _ _ _ _ hs]
    exact ⟨rfl, rfl, hs⟩

theorem visitOtherF_frame (M : Mode) (O : Opts) (H : Heap) (l r : Elem) (ctx : Ctx)
    (hs : ctx.searching = true) :
    (visitOtherF M O H l r ctx).2.result = ctx.result ∧
    (visitOtherF M O H l r ctx).2.changes = ctx.changes ∧
    (visitOtherF M O H l r ctx).2.searching = true := by
  unfold visitOtherF
  split <;> exact leafDispatch_frame M l r ctx _ hs

theorem compareF_searchFrame (M : Mode) (O : Opts) (H : Heap) :
    ∀ f, SearchFrame (compareF M O H f) := by
  intro f
  induction f with
  | zero =>
    intro l r ctx res ctx' hs h
    simp [compareF] at h
  | succ f ih =>
    intro lhs? rhs? ctx res ctx' hs h
    cases lhs? with
    | none =>
      cases rhs? with
      | some r =>
        simp only [compareF] at h
        rw [noLhsH_searching M r ctx hs] at h
        cases h
        exact ⟨rfl, rfl, hs⟩
      | none =>
        simp only [compareF] at h
        rw [areEqualH_searching ctx IS_SAME hs] at h
        split at h <;> (cases h; exact ⟨rfl, rfl, hs⟩)
    | some l =>
      cases rhs? with
      | none =>
        simp only [compareF] at h
        rw [noRhsH_searching M l ctx hs] at h
        cases h
        exact ⟨rfl, rfl, hs⟩
      | some r =>
        simp only [compareF] at h
        by_cases hpos : l.position ≠ r.position
        · rw [if_pos hpos] at h
          rw [notEqualH_searching M l r NOT_EQUAL ctx hs] at h
          cases h
          exact ⟨rfl, rfl, hs⟩
        · rw [if_neg hpos] at h
          by_cases hid : objectIs l.value r.value = true
          · rw [if_pos hid] at h
            rw [areEqualH_searching ctx IS_SAME hs] at h
            split at h <;> (cases h; exact ⟨rfl, rfl, hs⟩)
          · rw [if_neg hid] at h
            by_cases hty : typeOfV H l.value = typeOfV H r.value
            · rw [if_pos hty] at h
              simp only [superVisitGen] at h
              by_cases hguard : hasReferenceC ctx r.value = true
              · rw [if_pos hguard] at h
                cases h
                exact ⟨rfl, rfl, hs⟩
              · rw [if_neg hguard] at h
                have haddref := addRefC_frame O.guardCircularRefs ctx r.value
                split at h
                · have := visitArrayGen_frame (compareF M O H f) ih M O H l r _ res ctx'
                    (haddref.2.2.1.trans hs) h
                  exact ⟨this.1.trans haddref.1, this.2.1.trans haddref.2.1, this.2.2⟩
                · have := visitObjectGen_frame (compareF M O H f) ih M H l r _ res ctx'
                    (haddref.2.2.1.trans hs) h
                  exact ⟨this.1.trans haddref.1, this.2.1.trans haddref.2.1, this.2.2⟩
                · injection h with h2
                  have hv := visitOtherF_frame M O H l r ctx hs
                  rw [h2] at hv
                  simpa using hv
            · rw [if_neg hty] at h
              by_cases hlu : typeOfV H l.value = "undefined"
              · rw [if_pos hlu] at h
                rw [noLhsH_searching M r ctx hs] at h
                cases h
                exact ⟨rfl, rfl, hs⟩
              · rw [if_neg hlu] at h
                by_cases hru : typeOfV H r.value = "undefined"
                · rw [if_pos hru] at h
                  rw [noRhsH_searching M l ctx hs] at h
                  cases h
                  exact ⟨rfl, rfl, hs⟩
                · rw [if_neg hru] at h
                  rw [notEqualH_searching M l r NOT_EQUAL ctx hs] at h
                  cases h
                  exact ⟨rfl, rfl, hs⟩

/-- C9: `Compare.findIndexOf` is a frame-preserving search.  Whatever the
candidate comparisons record goes only into the search-result slot, and when
the search finishes the enclosing comparison's `result`, its accumulated
`changes` list, the `searching` flag and the `searchResult` slot are exactly
what they were before the search began. -/
theorem find_index_search_frame (M : Mode) (O : Opts) (H : Heap) (f : Nat) (elem : Elem)
    (arr : List Elem) (consumedIdx : List (Option SegV)) (ctx : Ctx) (idx : Int)
    (consumed' : List (Option SegV)) (ctx' : Ctx)
    (h : findIndexOfF M O H f elem arr consumedIdx ctx = .ok (idx, consumed', ctx')) :
    ctx'.result = ctx.result ∧ ctx'.changes = ctx.changes ∧
    ctx'.searching = ctx.searching ∧ ctx'.searchResult = ctx.searchResult :=
  findIndexOfGen_restore (compareF M O H f) (compareF_searchFrame M O H f) H elem arr
    consumedIdx ctx idx consumed' ctx' h

/-- Witness for `find_index_search_frame`: a concrete search of the number 1
inside the candidate list [2, 1] from a diff context that already holds one
recorded change; the search succeeds (index 1) and the context's result,
changes, searching flag and search slot are untouched. -/
theorem find_index_search_frame_witness :
    findIndexOfF .diffM {} [] 5 { value := .num (.fin 1) }
      [{ value := .num (.fin 2), property := some (.i 0) },
       { value := .num (.fin 1), property := some (.i 1) }] []
      { result := some NOT_EQUAL, changes := [.remove []] } =
      .ok (1, [some (.i 1)],
        { result := some NOT_EQUAL, changes := [.remove []] }) ∧
    ({ result := some NOT_EQUAL, changes := [.remove []] } : Ctx).result = some NOT_EQUAL := by
  have h : findIndexOfF .diffM {} [] 5 { value := .num (.fin 1) }
      [{ value := .num (.fin 2), property := some (.i 0) },
       { value := .num (.fin 1), property := some (.i 1) }] []
      { result := some NOT_EQUAL, changes := [.remove []] } =
      .ok (1, [some (.i 1)],
        { result := some NOT_EQUAL, changes := [.remove []] }) := by decide
  have := find_index_search_frame .diffM {} [] 5 _ _ _ _ _ _ _ h
  exact ⟨h, rfl⟩

theorem append_chain {a b c δ1 δ2 : List Change} (h1 : b = a ++ δ1) (h2 : c = b ++ δ2) :
    ∃ δ, c = a ++ δ :=
  ⟨δ1 ++ δ2, by rw [h2, h1, List.append_assoc]⟩

theorem pair_eq_parts {α β : Type} {x : α × β} {a : α} {b : β} (h : x = (a, b)) :
    a = x.1 ∧ b = x.2 := by
  cases h
  exact ⟨rfl, rfl⟩

theorem areEqualH_step (ctx : Ctx) (c : CmpRes) :
    (areEqualH ctx c).1 = VRes.b false ∧ (areEqualH ctx c).2.changes = ctx.changes := by
  unfold areEqualH
  split
  · split <;> exact ⟨rfl, rfl⟩
  · split <;> exact ⟨rfl, rfl⟩

theorem notEqualH_diff_step (l r : Elem) (c : CmpRes) (ctx : Ctx) :
    (notEqualH .diffM l r c ctx).1 = VRes.b true ∧
    ∃ δ, (notEqualH .diffM l r c ctx).2.changes = ctx.changes ++ δ := by
  unfold notEqualH
  by_cases hs : ctx.searching = true <;> simp [hs]

theorem noRhsH_diff_step (l : Elem) (ctx : Ctx) :
    (noRhsH .diffM l ctx).1 = VRes.b true ∧
    ∃ δ, (noRhsH .diffM l ctx).2.changes = ctx.changes ++ δ := by
  unfold noRhsH
  by_cases hs : ctx.searching = true <;> simp [hs]

theorem noLhsH_diff_step (r : Elem) (ctx : Ctx) (res : VRes) (ctx' : Ctx)
    (h : noLhsH .diffM r ctx = .ok (res, ctx')) :
    res = VRes.b true ∧ ∃ δ, ctx'.changes = ctx.changes ++ δ := by
  unfold noLhsH at h
  by_cases hs : ctx.searching = true
  · simp only [hs, if_true] at h
    cases h
    exact ⟨rfl, [], by simp⟩
  · simp only [hs, if_false, bind, Except.bind] at h
    cases hca : createAddH r with
    | error e => rw [hca] at h; cases h
    | ok c =>
      rw [hca] at h
      cases h
      exact ⟨rfl, [c], rfl⟩

theorem remPropsLoop_diff (H : Heap) (l : Elem) :
    ∀ (ps : List String) (ctx : Ctx) (ab : Option Elem) (ctx' : Ctx),
      remPropsLoop .diffM H l ps ctx = (ab, ctx') →
      ab = none ∧ ∃ δ, ctx'.changes = ctx.changes ++ δ := by
  intro ps
  induction ps with
  | nil =>
    intro ctx ab ctx' h
    simp only [remPropsLoop] at h
    cases h
    exact ⟨rfl, [], by simp⟩
  | cons p rest ih =>
    intro ctx ab ctx' h
    by_cases hs : ctx.searching = true
    · simp only [remPropsLoop, noRhsH, hs, if_true] at h
      exact ih { ctx with searching := true, searchResult := some NOT_EQUAL } ab ctx' h
    · simp only [remPropsLoop, noRhsH, hs, if_false] at h
      obtain ⟨hab, δ, hδ⟩ := ih _ ab ctx' h
      refine ⟨hab, append_chain (b := ctx.changes ++ [.remove (objChild H l p).path]) rfl hδ⟩

theorem addPropsLoop_diff (H : Heap) (r : Elem) :
    ∀ (ps : List String) (ctx : Ctx) (ab : Option Elem) (ctx' : Ctx),
      addPropsLoop .diffM H r ps ctx = .ok (ab, ctx') →
      ab = none ∧ ∃ δ, ctx'.changes = ctx.changes ++ δ := by
  intro ps
  induction ps with
  | nil =>
    intro ctx ab ctx' h
    simp only [addPropsLoop] at h
    cases h
    exact ⟨rfl, [], by simp⟩
  | cons p rest ih =>
    intro ctx ab ctx' h
    simp only [addPropsLoop, bind, Except.bind] at h
    cases hnl : noLhsH .diffM (objChild H r p) ctx with
    | error e => rw [hnl] at h; cases h
    | ok out =>
      rw [hnl] at h
      obtain ⟨res1, ctx1⟩ := out
      have hstep := noLhsH_diff_step (objChild H r p) ctx res1 ctx1 hnl
      rw [hstep.1] at h
      obtain ⟨hab, δ2, hδ2⟩ := ih ctx1 ab ctx' h
      obtain ⟨δ1, hδ1⟩ := hstep.2
      exact ⟨hab, append_chain hδ1 hδ2⟩

theorem sharedPropsLoop_diff (cmp : Option Elem → Option Elem → Ctx → CResult)
    (hD : DiffStep cmp) (H : Heap) (l r : Elem) :
    ∀ (ps : List String) (ctx : Ctx) (ab : Option Elem) (ctx' : Ctx),
      sharedPropsLoop cmp H l r ps ctx = .ok (ab, ctx') →
      ab = none ∧ ∃ δ, ctx'.changes = ctx.changes ++ δ := by
  intro ps
  induction ps with
  | nil =>
    intro ctx ab ctx' h
    simp only [sharedPropsLoop] at h
    cases h
    exact ⟨rfl, [], by simp⟩
  | cons p rest ih =>
    intro ctx ab ctx' h
    simp only [sharedPropsLoop, bind, Except.bind] at h
    cases hc : cmp (some (objChild H l p)) (some (objChild H r p)) ctx with
    | error e => rw [hc] at h; cases h
    | ok out =>
      rw [hc] at h
      obtain ⟨res1, ctx1⟩ := out
      obtain ⟨⟨bl, hbl⟩, δ1, hδ1⟩ := hD _ _ _ _ _ hc
      subst hbl
      obtain ⟨hab, δ2, hδ2⟩ := ih ctx1 ab ctx' h
      exact ⟨hab, append_chain hδ1 hδ2⟩

theorem strictPairsLoop_diff (cmp : Option Elem → Option Elem → Ctx → CResult)
    (hD : DiffStep cmp) (lE rE : List Elem) :
    ∀ (idxs : List Nat) (ctx : Ctx) (ab : Option Elem) (ctx' : Ctx),
      strictPairsLoop cmp lE rE idxs ctx = .ok (ab, ctx') →
      ab = none ∧ ∃ δ, ctx'.changes = ctx.changes ++ δ := by
  intro idxs
  induction idxs with
  | nil =>
    intro ctx ab ctx' h
    simp only [strictPairsLoop] at h
    cases h
    exact ⟨rfl, [], by simp⟩
  | cons i rest ih =>
    intro ctx ab ctx' h
    simp only [strictPairsLoop, bind, Except.bind] at h
    cases hc : cmp (lE.get? i) (rE.get? i) ctx with
    | error e => rw [hc] at h; cases h
    | ok out =>
      rw [hc] at h
      obtain ⟨res1, ctx1⟩ := out
      obtain ⟨⟨bl, hbl⟩, δ1, hδ1⟩ := hD _ _ _ _ _ hc
      subst hbl
      obtain ⟨hab, δ2, hδ2⟩ := ih ctx1 ab ctx' h
      exact ⟨hab, append_chain hδ1 hδ2⟩

theorem laxSharedLoop_diff (cmp : Option Elem → Option Elem → Ctx → CResult)
    (hD : DiffStep cmp) (lE rE : List Elem) :
    ∀ (ams : List ArrayMatch) (ctx : Ctx) (ab : Option Elem) (ctx' : Ctx),
      laxSharedLoop cmp lE rE ams ctx = .ok (ab, ctx') →
      ab = none ∧ ∃ δ, ctx'.changes = ctx.changes ++ δ := by
  intro ams
  induction ams with
  | nil =>
    intro ctx ab ctx' h
    simp only [laxSharedLoop] at h
    cases h
    exact ⟨rfl, [], by simp⟩
  | cons am rest ih =>
    intro ctx ab ctx' h
    simp only [laxSharedLoop, bind, Except.bind] at h
    cases hc : cmp (some (elemAtInt lE am.lhIdx)) (some (elemAtInt rE am.rhIdx)) ctx with
    | error e => rw [hc] at h; cases h
    | ok out =>
      rw [hc] at h
      obtain ⟨res1, ctx1⟩ := out
      obtain ⟨⟨bl, hbl⟩, δ1, hδ1⟩ := hD _ _ _ _ _ hc
      subst hbl
      obtain ⟨hab, δ2, hδ2⟩ := ih ctx1 ab ctx' h
      exact ⟨hab, append_chain hδ1 hδ2⟩

theorem laxRemovedLoop_diff (lE : List Elem) :
    ∀ (ams : List ArrayMatch) (ctx : Ctx) (ab : Option Elem) (ctx' : Ctx),
      laxRemovedLoop .diffM lE ams ctx = (ab, ctx') →
      ab = none ∧ ∃ δ, ctx'.changes = ctx.changes ++ δ := by
  intro ams
  induction ams with
  | nil =>
    intro ctx ab ctx' h
    simp only [laxRemovedLoop] at h
    cases h
    exact ⟨rfl, [], by simp⟩
  | cons am rest ih =>
    intro ctx ab ctx' h
    by_cases hs : ctx.searching = true
    · simp only [laxRemovedLoop, noRhsH, hs, if_true] at h
      exact ih { ctx with searching := true, searchResult := some NOT_EQUAL } ab ctx' h
    · simp only [laxRemovedLoop, noRhsH, hs, if_false] at h
      obtain ⟨hab, δ, hδ⟩ := ih _ ab ctx' h
      exact ⟨hab,
        append_chain (b := ctx.changes ++ [.remove (elemAtInt lE am.lhIdx).path]) rfl hδ⟩

theorem laxAddedLoop_diff (rE : List Elem) :
    ∀ (ams : List ArrayMatch) (ctx : Ctx) (ab : Option Elem) (ctx' : Ctx),
      laxAddedLoop .diffM rE ams ctx = .ok (ab, ctx') →
      ab = none ∧ ∃ δ, ctx'.changes = ctx.changes ++ δ := by
  intro ams
  induction ams with
  | nil =>
    intro ctx ab ctx' h
    simp only [laxAddedLoop] at h
    cases h
    exact ⟨rfl, [], by simp⟩
  | cons am rest ih =>
    intro ctx ab ctx' h
    simp only [laxAddedLoop, bind, Except.bind] at h
    cases hnl : noLhsH .diffM (elemAtInt rE am.rhIdx) ctx with
    | error e => rw [hnl] at h; cases h
    | ok out =>
      rw [hnl] at h
      obtain ⟨res1, ctx1⟩ := out
      have hstep := noLhsH_diff_step (elemAtInt rE am.rhIdx) ctx res1 ctx1 hnl
      rw [hstep.1] at h
      obtain ⟨hab, δ2, hδ2⟩ := ih ctx1 ab ctx' h
      obtain ⟨δ1, hδ1⟩ := hstep.2
      exact ⟨hab, append_chain hδ1 hδ2⟩

theorem visitObjectGen_diff (cmp : Option Elem → Option Elem → Ctx → CResult)
    (hD : DiffStep cmp) (H : Heap) (l r : Elem) (ctx : Ctx) (res : VRes) (ctx' : Ctx)
    (h : visitObjectGen cmp .diffM H l r ctx = .ok (res, ctx')) :
    res = VRes.b false ∧ ∃ δ, ctx'.changes = ctx.changes ++ δ := by
  simp only [visitObjectGen, bind, Except.bind] at h
  cases h1 : remPropsLoop .diffM H l
      ((objPropsH H l.value).filter fun x => !(objPropsH H r.value).contains x) ctx with
  | mk ab1 ctx1 =>
    rw [h1] at h
    obtain ⟨hab1, δ1, hδ1⟩ := remPropsLoop_diff H l _ ctx ab1 ctx1 h1
    subst hab1
    simp only at h
    cases h2 : addPropsLoop .diffM H r
        ((objPropsH H r.value).filter fun x => !(objPropsH H l.value).contains x) ctx1 with
    | error e => rw [h2] at h; cases h
    | ok out2 =>
      rw [h2] at h
      obtain ⟨ab2, ctx2⟩ := out2
      simp only [Except.bind] at h
      obtain ⟨hab2, δ2, hδ2⟩ := addPropsLoop_diff H r _ ctx1 ab2 ctx2 h2
      subst hab2
      cases h3 : sharedPropsLoop cmp H l r
          ((objPropsH H l.value).filter fun x => (objPropsH H r.value).contains x) ctx2 with
      | error e => rw [h3] at h; cases h
      | ok out3 =>
        rw [h3] at h
        obtain ⟨ab3, ctx3⟩ := out3
        simp only [Except.bind] at h
        obtain ⟨hab3, δ3, hδ3⟩ := sharedPropsLoop_diff cmp hD H l r _ ctx2 ab3 ctx3 h3
        subst hab3
        cases h
        exact ⟨rfl, append_chain (append_chain hδ1 hδ2).choose_spec hδ3⟩

theorem visitArrayGen_diff (cmp : Option Elem → Option Elem → Ctx → CResult)
    (hD : DiffStep cmp) (hS : SearchFrame cmp) (O : Opts) (H : Heap) (l r : Elem)
    (ctx : Ctx) (res : VRes) (ctx' : Ctx)
    (h : visitArrayGen cmp .diffM O H l r ctx = .ok (res, ctx')) :
    res = VRes.b false ∧ ∃ δ, ctx'.changes = ctx.changes ++ δ := by
  simp only [visitArrayGen, bind, Except.bind] at h
  by_cases hlax : O.laxArrayOrdering = true
  · rw [if_pos hlax] at h
    cases h1 : laxMatchLoop (findIndexOfGen cmp H) (mkArrayElems O H r (arrElemsH H r.value))
        (enumIdx (mkArrayElems O H l (arrElemsH H l.value))) ([], [], [], ctx) with
    | error e => rw [h1] at h; cases h
    | ok out1 =>
      rw [h1] at h
      obtain ⟨sh, rm, cons1, ctx1⟩ := out1
      simp only [Except.bind] at h
      have hf1 := laxMatchLoop_frame cmp hS H _ _ [] [] [] ctx sh rm cons1 ctx1 h1
      cases h2 : laxSharedLoop cmp (mkArrayElems O H l (arrElemsH H l.value))
          (mkArrayElems O H r (arrElemsH H r.value))
          (sortBy (fun a b => decide (b.lhIdx ≤ a.lhIdx)) sh) ctx1 with
      | error e => rw [h2] at h; cases h
      | ok out2 =>
        rw [h2] at h
        obtain ⟨ab2, ctx2⟩ := out2
        simp only [Except.bind] at h
        obtain ⟨hab2, δ2, hδ2⟩ := laxSharedLoop_diff cmp hD _ _ _ ctx1 ab2 ctx2 h2
        subst hab2
        cases h3 : laxRemovedLoop .diffM (mkArrayElems O H l (arrElemsH H l.value))
            (sortBy (fun a b => decide (b.lhIdx ≤ a.lhIdx)) rm) ctx2 with
        | mk ab3 ctx3 =>
          rw [h3] at h
          obtain ⟨hab3, δ3, hδ3⟩ := laxRemovedLoop_diff _ _ ctx2 ab3 ctx3 h3
          subst hab3
          simp only at h
          cases h4 : laxAddedLoop .diffM (mkArrayElems O H r (arrElemsH H r.value))
              (sortBy (fun a b => decide (a.rhIdx ≤ b.rhIdx))
                (laxAdded (mkArrayElems O H r (arrElemsH H r.value)).length cons1)) ctx3 with
          | error e => rw [h4] at h; cases h
          | ok out4 =>
            rw [h4] at h
            obtain ⟨ab4, ctx4⟩ := out4
            simp only [Except.bind] at h
            obtain ⟨hab4, δ4, hδ4⟩ := laxAddedLoop_diff _ _ ctx3 ab4 ctx4 h4
            subst hab4
            cases h
            have base : ctx1.changes = ctx.changes ++ [] := by simp [hf1.2.1]
            exact ⟨rfl,
              append_chain (append_chain (append_chain base hδ2).choose_spec hδ3).choose_spec hδ4⟩
  · rw [if_neg hlax] at h
    cases h1 : strictPairsLoop cmp (mkArrayElems O H l (arrElemsH H l.value))
        (mkArrayElems O H r (arrElemsH H r.value))
        (List.range
          (if (mkArrayElems O H l (arrElemsH H l.value)).length >
              (mkArrayElems O H r (arrElemsH H r.value)).length then
            (mkArrayElems O H l (arrElemsH H l.value)).length
          else (mkArrayElems O H r (arrElemsH H r.value)).length)).reverse ctx with
    | error e => rw [h1] at h; cases h
    | ok out1 =>
      rw [h1] at h
      obtain ⟨ab1, ctx1⟩ := out1
      simp only [Except.bind] at h
      obtain ⟨hab1, δ1, hδ1⟩ := strictPairsLoop_diff cmp hD _ _ _ ctx ab1 ctx1 h1
      subst hab1
      cases h
      exact ⟨rfl, δ1, hδ1⟩

theorem leafDispatch_diff (l r : Elem) (ctx : Ctx) (c : CmpRes) :
    (∃ bl,
      ((if isEqualRes c = true then areEqualH ctx c else notEqualH .diffM l r c ctx)).1 =
        VRes.b bl) ∧
    ∃ δ,
      ((if isEqualRes c = true then areEqualH ctx c else notEqualH .diffM l r c ctx)).2.changes =
        ctx.changes ++ δ := by
  split
  · exact ⟨⟨false, (areEqualH_step ctx c).1⟩, [], by simp [(areEqualH_step ctx c).2]⟩
  · exact ⟨⟨true, (notEqualH_diff_step l r c ctx).1⟩, (notEqualH_diff_step l r c ctx).2⟩

theorem visitOtherF_diff (O : Opts) (H : Heap) (l r : Elem) (ctx : Ctx) :
    (∃ bl, (visitOtherF .diffM O H l r ctx).1 = VRes.b bl) ∧
    ∃ δ, (visitOtherF .diffM O H l r ctx).2.changes = ctx.changes ++ δ := by
  unfold visitOtherF
  split <;> exact leafDispatch_diff l r ctx _

theorem compareF_diffStep (O : Opts) (H : Heap) :
    ∀ f, DiffStep (compareF .diffM O H f) := by
  intro f
  induction f with
  | zero =>
    intro l r ctx res ctx' h
    simp [compareF] at h
  | succ f ih =>
    intro lhs? rhs? ctx res ctx' h
    cases lhs? with
    | none =>
      cases rhs? with
      | some r =>
        simp only [compareF] at h
        exact ⟨⟨true, (noLhsH_diff_step r ctx res ctx' h).1⟩, (noLhsH_diff_step r ctx res ctx' h).2⟩
      | none =>
        simp only [compareF] at h
        injection h with h2
        obtain ⟨hr, hc⟩ := pair_eq_parts h2
        exact ⟨⟨false, by rw [hr, (areEqualH_step ctx IS_SAME).1]⟩, [],
          by rw [hc, (areEqualH_step ctx IS_SAME).2]; simp⟩
    | some l =>
      cases rhs? with
      | none =>
        simp only [compareF] at h
        injection h with h2
        obtain ⟨hr, hc⟩ := pair_eq_parts h2
        refine ⟨⟨true, by rw [hr, (noRhsH_diff_step l ctx).1]⟩, ?_⟩
        obtain ⟨δ, hδ⟩ := (noRhsH_diff_step l ctx).2
        exact ⟨δ, by rw [hc, hδ]⟩
      | some r =>
        simp only [compareF] at h
        by_cases hpos : l.position ≠ r.position
        · rw [if_pos hpos] at h
          injection h with h2
          obtain ⟨hr, hc⟩ := pair_eq_parts h2
          refine ⟨⟨true, by rw [hr, (notEqualH_diff_step l r NOT_EQUAL ctx).1]⟩, ?_⟩
          obtain ⟨δ, hδ⟩ := (notEqualH_diff_step l r NOT_EQUAL ctx).2
          exact ⟨δ, by rw [hc, hδ]⟩
        · rw [if_neg hpos] at h
          by_cases hid : objectIs l.value r.value = true
          · rw [if_pos hid] at h
            injection h with h2
            obtain ⟨hr, hc⟩ := pair_eq_parts h2
            exact ⟨⟨false, by rw [hr, (areEqualH_step ctx IS_SAME).1]⟩, [],
              by rw [hc, (areEqualH_step ctx IS_SAME).2]; simp⟩
          · rw [if_neg hid] at h
            by_cases hty : typeOfV H l.value = typeOfV H r.value
            · rw [if_pos hty] at h
              simp only [superVisitGen] at h
              by_cases hguard : hasReferenceC ctx r.value = true
              · rw [if_pos hguard] at h
                cases h
                exact ⟨⟨false, rfl⟩, [], by simp⟩
              · rw [if_neg hguard] at h
                have haddref := addRefC_frame O.guardCircularRefs ctx r.value
                split at h
                · obtain ⟨hres, δ, hδ⟩ := visitArrayGen_diff (compareF .diffM O H f) ih
                    (compareF_searchFrame .diffM O H f) O H l r _ res ctx' h
                  exact ⟨⟨false, hres⟩, δ, by rw [hδ, haddref.2.1]⟩
                · obtain ⟨hres, δ, hδ⟩ := visitObjectGen_diff (compareF .diffM O H f) ih
                    H l r _ res ctx' h
                  exact ⟨⟨false, hres⟩, δ, by rw [hδ, haddref.2.1]⟩
                · injection h with h2
                  have hv := visitOtherF_diff O H l r ctx
                  rw [h2] at hv
                  exact ⟨hv.1, hv.2⟩
            · rw [if_neg hty] at h
              by_cases hlu : typeOfV H l.value = "undefined"
              · rw [if_pos hlu] at h
                exact ⟨⟨true, (noLhsH_diff_step r ctx res ctx' h).1⟩,
                  (noLhsH_diff_step r ctx res ctx' h).2⟩
              · rw [if_neg hlu] at h
                by_cases hru : typeOfV H r.value = "undefined"
                · rw [if_pos hru] at h
                  injection h with h2
                  obtain ⟨hr, hc⟩ := pair_eq_parts h2
                  refine ⟨⟨true, by rw [hr, (noRhsH_diff_step l ctx).1]⟩, ?_⟩
                  obtain ⟨δ, hδ⟩ := (noRhsH_diff_step l ctx).2
                  exact ⟨δ, by rw [hc, hδ]⟩
                · rw [if_neg hru] at h
                  injection h with h2
                  obtain ⟨hr, hc⟩ := pair_eq_parts h2
                  refine ⟨⟨true, by rw [hr, (notEqualH_diff_step l r NOT_EQUAL ctx).1]⟩, ?_⟩
                  obtain ⟨δ, hδ⟩ := (notEqualH_diff_step l r NOT_EQUAL ctx).2
                  exact ⟨δ, by rw [hc, hδ]⟩

theorem mapWithIdxAux_length (f : Nat → α → β) : ∀ (n : Nat) (l : List α),
    (mapWithIdxAux f n l).length = l.length := by
  intro n l
  induction l generalizing n with
  | nil => rfl
  | cons a t ih => simp [mapWithIdxAux, ih]

theorem mkArrayElems_length (O : Opts) (H : Heap) (p : Elem) (vs : List HVal) :
    (mkArrayElems O H p vs).length = vs.length := by
  simp [mkArrayElems, mapWithIdx, mapWithIdxAux_length]

theorem strictLoop_tailChunks (cmp : Option Elem → Option Elem → Ctx → CResult)
    (hD : DiffStep cmp) (lE rE : List Elem) :
    ∀ (idxs : List Nat) (ctx : Ctx) (ab : Option Elem) (ctx' : Ctx),
      strictPairsLoop cmp lE rE idxs ctx = .ok (ab, ctx') →
      ab = none ∧ ∃ chunks, tailFirstChunks cmp lE rE idxs ctx = .ok (chunks, ctx') ∧
        ctx'.changes = ctx.changes ++ chunks.flatten ∧ chunks.length = idxs.length := by
  intro idxs
  induction idxs with
  | nil =>
    intro ctx ab ctx' h
    simp only [strictPairsLoop] at h
    cases h
    exact ⟨rfl, [], by simp [tailFirstChunks], by simp, rfl⟩
  | cons i rest ih =>
    intro ctx ab ctx' h
    simp only [strictPairsLoop, bind, Except.bind] at h
    cases hc : cmp (lE.get? i) (rE.get? i) ctx with
    | error e => rw [hc] at h; cases h
    | ok out =>
      rw [hc] at h
      obtain ⟨res1, ctx1⟩ := out
      obtain ⟨⟨bl, hbl⟩, δ1, hδ1⟩ := hD _ _ _ _ _ hc
      subst hbl
      obtain ⟨hab, chunks, hch, hjoin, hlen⟩ := ih ctx1 ab ctx' h
      refine ⟨hab, δ1 :: chunks, ?_, ?_, by simp [hlen]⟩
      · simp only [tailFirstChunks, bind, Except.bind, hc, hch]
        have : ctx1.changes.drop ctx.changes.length = δ1 := by
          rw [hδ1]
          exact List.drop_left ctx.changes δ1
        rw [this]
      · rw [hjoin, hδ1]
        simp [List.append_assoc]

theorem visitArrayGen_strict_chunks (cmp : Option Elem → Option Elem → Ctx → CResult)
    (hD : DiffStep cmp) (O : Opts) (H : Heap) (hlax : O.laxArrayOrdering = false)
    (l r : Elem) (ctx : Ctx) (res : VRes) (ctx' : Ctx)
    (h : visitArrayGen cmp .diffM O H l r ctx = .ok (res, ctx')) :
    ∃ chunks,
      tailFirstChunks cmp (mkArrayElems O H l (arrElemsH H l.value))
        (mkArrayElems O H r (arrElemsH H r.value))
        (List.range
          (if (mkArrayElems O H l (arrElemsH H l.value)).length >
              (mkArrayElems O H r (arrElemsH H r.value)).length then
            (mkArrayElems O H l (arrElemsH H l.value)).length
          else (mkArrayElems O H r (arrElemsH H r.value)).length)).reverse ctx =
        .ok (chunks, ctx') ∧
      ctx'.changes = ctx.changes ++ chunks.flatten ∧
      chunks.length =
        (if (mkArrayElems O H l (arrElemsH H l.value)).length >
            (mkArrayElems O H r (arrElemsH H r.value)).length then
          (mkArrayElems O H l (arrElemsH H l.value)).length
        else (mkArrayElems O H r (arrElemsH H r.value)).length) ∧
      res = VRes.b false := by
  simp only [visitArrayGen, bind, Except.bind, hlax, Bool.false_eq_true, if_false] at h
  cases hs1 : strictPairsLoop cmp (mkArrayElems O H l (arrElemsH H l.value))
      (mkArrayElems O H r (arrElemsH H r.value))
      (List.range
        (if (mkArrayElems O H l (arrElemsH H l.value)).length >
            (mkArrayElems O H r (arrElemsH H r.value)).length then
          (mkArrayElems O H l (arrElemsH H l.value)).length
        else (mkArrayElems O H r (arrElemsH H r.value)).length)).reverse ctx with
  | error e => rw [hs1] at h; cases h
  | ok out =>
    rw [hs1] at h
    obtain ⟨ab1, ctx1⟩ := out
    simp only [Except.bind] at h
    obtain ⟨hab, chunks, hch, hjoin, hlen⟩ :=
      strictLoop_tailChunks cmp hD _ _ _ ctx ab1 ctx1 hs1
    subst hab
    simp only at h
    cases h
    exact ⟨chunks, hch, hjoin, hlen.trans (by simp), rfl⟩

/-- C6: a strict-mode (default options) diff of two top-level arrays runs the
per-index comparisons from the tail of the longer array backward, and the
produced change list is exactly the concatenation of the per-index chunks in
that descending index order; in particular every Remove/Edit operation emitted
for a larger index precedes every operation emitted for a smaller index. -/
theorem strict_array_diff_tail_first (H : Heap) (f : Nat) (a b : Nat) (As Bs : List HVal)
    (cs : List Change)
    (ha : heapFind H a = some (.arr As)) (hb : heapFind H b = some (.arr Bs)) (hne : a ≠ b)
    (hd : diffF {} H (f + 1) (.ref a) (.ref b) = .ok cs) :
    ∃ chunks ctxF,
      tailFirstChunks (compareF .diffM {} H f)
          (mkArrayElems {} H (rootElem (.ref a)) As) (mkArrayElems {} H (rootElem (.ref b)) Bs)
          (List.range (if As.length > Bs.length then As.length else Bs.length)).reverse
          (initCtx {}) = .ok (chunks, ctxF) ∧
      cs = chunks.flatten ∧
      chunks.length = (if As.length > Bs.length then As.length else Bs.length) := by
  have harr : arrElemsH H (HVal.ref a) = As := by simp [arrElemsH, ha]
  have hbrr : arrElemsH H (HVal.ref b) = Bs := by simp [arrElemsH, hb]
  have hta : typeOfV H (HVal.ref a) = "array" := by simp [typeOfV, ha]
  have htb : typeOfV H (HVal.ref b) = "array" := by simp [typeOfV, hb]
  have hid : objectIs (HVal.ref a) (HVal.ref b) = false := by
    simp [objectIs, hne]
  simp only [diffF, bind, Except.bind] at hd
  cases hcf : compareF .diffM {} H (f + 1) (some (rootElem (.ref a)))
      (some (rootElem (.ref b))) (initCtx {}) with
  | error e => rw [hcf] at hd; cases hd
  | ok out =>
    rw [hcf] at hd
    obtain ⟨res0, ctxF⟩ := out
    simp only [Except.bind] at hd
    cases hd
    simp only [compareF, rootElem, initCtx] at hcf
    rw [if_neg (by simp)] at hcf
    rw [if_neg (by simp [hid])] at hcf
    rw [if_pos (hta.trans htb.symm)] at hcf
    simp only [superVisitGen] at hcf
    rw [if_neg (by simp [hasReferenceC])] at hcf
    rw [htb] at hcf
    simp only [addRefC, Bool.false_eq_true, if_false] at hcf
    obtain ⟨chunks, hch, hjoin, hlen, hres⟩ :=
      visitArrayGen_strict_chunks (compareF .diffM {} H f) (compareF_diffStep {} H f) {} H
        rfl _ _ _ res0 ctxF hcf
    refine ⟨chunks, ctxF, ?_, ?_, ?_⟩
    · rw [← hch]
      congr 1 <;>
        simp [mkArrayElems_length, rootElem, initCtx, harr, hbrr]
    · simpa using hjoin
    · rw [hlen]
      congr 1 <;> simp [mkArrayElems_length, harr, hbrr, rootElem]

/-- Witness for `strict_array_diff_tail_first`: diffing `[1, 2]` against
`[2, 3]` yields the index-1 Edit before the index-0 Edit, and the change list
decomposes into the two per-index chunks in descending index order. -/
theorem strict_array_diff_tail_first_witness :
    diffF {} heapTwoArrays 6 (.ref 1) (.ref 2) =
      .ok [.edit [⟨"array", .i 1⟩] (.num (.fin 3)), .edit [⟨"array", .i 0⟩] (.num (.fin 2))] ∧
    (∃ chunks ctxF,
      tailFirstChunks (compareF .diffM {} heapTwoArrays 5)
          (mkArrayElems {} heapTwoArrays (rootElem (.ref 1))
            [.num (.fin 1), .num (.fin 2)])
          (mkArrayElems {} heapTwoArrays (rootElem (.ref 2))
            [.num (.fin 2), .num (.fin 3)])
          (List.range 2).reverse (initCtx {}) = .ok (chunks, ctxF) ∧
      [Change.edit [⟨"array", .i 1⟩] (.num (.fin 3)),
        Change.edit [⟨"array", .i 0⟩] (.num (.fin 2))] = chunks.flatten ∧
      chunks.length = 2) := by
  have hd : diffF {} heapTwoArrays 6 (.ref 1) (.ref 2) =
      .ok [.edit [⟨"array", .i 1⟩] (.num (.fin 3)),
        .edit [⟨"array", .i 0⟩] (.num (.fin 2))] := by decide
  refine ⟨hd, ?_⟩
  have := strict_array_diff_tail_first heapTwoArrays 5 1 2
    [.num (.fin 1), .num (.fin 2)] [.num (.fin 2), .num (.fin 3)] _ rfl rfl
    (by decide) hd
  exact this

theorem countP_le_of_imp {α : Type} (p q : α → Bool) :
    ∀ l : List α, (∀ x ∈ l, q x = true → p x = true) → l.countP q ≤ l.countP p := by
  intro l
  induction l with
  | nil => intro _; simp
  | cons a t ih =>
    intro h
    rw [List.countP_cons, List.countP_cons]
    have ht := ih (fun x hx => h x (List.mem_cons_of_mem a hx))
    have hif : (if q a then 1 else 0) ≤ (if p a then 1 else 0) := by
      cases hq : q a
      · simp
      · have := h a (List.mem_cons_self a t) hq
        simp [this]
    omega

theorem countP_lt_of_entry {α : Type} (p q : α → Bool) :
    ∀ l : List α, (∀ x ∈ l, q x = true → p x = true) →
      ∀ a ∈ l, p a = true → q a = false → l.countP q < l.countP p := by
  intro l
  induction l with
  | nil =>
    intro _ a ha
    exact absurd ha (List.not_mem_nil a)
  | cons b t ih =>
    intro h a ha hpa hqa
    rw [List.countP_cons, List.countP_cons]
    rcases List.mem_cons.mp ha with h1 | h1
    · subst h1
      have ht := countP_le_of_imp p q t (fun x hx => h x (List.mem_cons_of_mem _ hx))
      rw [hpa, hqa]
      simp only [Bool.false_eq_true, if_false, if_true]
      omega
    · have ht := ih (fun x hx => h x (List.mem_cons_of_mem _ hx)) a h1 hpa hqa
      have hif : (if q b then 1 else 0) ≤ (if p b then 1 else 0) := by
        cases hq : q b
        · simp
        · have := h b (List.mem_cons_self b t) hq
          simp [this]
      omega

theorem uncovered_append_le (H : Heap) (rl ext : List HVal) :
    uncovered H (rl ++ ext) ≤ uncovered H rl := by
  unfold uncovered
  apply countP_le_of_imp
  intro x _ hq
  simp only [Bool.not_eq_true'] at hq ⊢
  cases hc : rl.contains (HVal.ref x)
  · rfl
  · exfalso
    have : (rl ++ ext).contains (HVal.ref x) = true := by
      have : HVal.ref x ∈ rl := by simpa using hc
      simp [this]
    rw [this] at hq
    cases hq

theorem uncovered_push_lt (H : Heap) (rl : List HVal) (a : Nat) (hd : a ∈ heapDom H)
    (hc : rl.contains (HVal.ref a) = false) :
    uncovered H (rl ++ [HVal.ref a]) < uncovered H rl := by
  unfold uncovered
  apply countP_lt_of_entry _ _ _ ?imp a hd ?pa ?qa
  case imp =>
    intro x _ hq
    simp only [Bool.not_eq_true'] at hq ⊢
    cases hcx : rl.contains (HVal.ref x)
    · rfl
    · exfalso
      have hmem : (rl ++ [HVal.ref a]).contains (HVal.ref x) = true := by
        have : HVal.ref x ∈ rl := by simpa using hcx
        simp [this]
      rw [hmem] at hq
      cases hq
  case pa =>
    simp only [Bool.not_eq_true']
    exact hc
  case qa => simp

theorem truthy_ref (a : Nat) : truthy (HVal.ref a) = true := rfl

theorem heapFind_mem_dom (H : Heap) (a : Nat) (o : HObj) (h : heapFind H a = some o) :
    a ∈ heapDom H := by
  unfold heapFind at h
  cases hf : H.find? (fun p => p.1 = a) with
  | none => rw [hf] at h; cases h
  | some pr =>
    have h1 := List.find?_some hf
    have h2 := List.mem_of_find?_eq_some hf
    simp at h1
    unfold heapDom
    exact h1 ▸ List.mem_map_of_mem Prod.fst h2

theorem typeOfV_array_cases (H : Heap) (v : HVal) (h : typeOfV H v = "array") :
    ∃ a es, v = HVal.ref a ∧ heapFind H a = some (.arr es) := by
  cases v
  case undef => simp [typeOfV] at h
  case null => simp [typeOfV] at h
  case bool b => simp [typeOfV] at h
  case num n => simp [typeOfV] at h
  case str s => simp [typeOfV] at h
  case ref a =>
    simp only [typeOfV] at h
    cases hf : heapFind H a with
    | none => rw [hf] at h; simp at h
    | some o =>
      rw [hf] at h
      cases o with
      | arr es => exact ⟨a, es, rfl, hf⟩
      | obj ps => simp at h

theorem typeOfV_object_cases (H : Heap) (v : HVal) (h : typeOfV H v = "object") :
    ∃ a, v = HVal.ref a ∧
      ((∃ ps, heapFind H a = some (.obj ps)) ∨ heapFind H a = none) := by
  cases v
  case undef => simp [typeOfV] at h
  case null => simp [typeOfV] at h
  case bool b => simp [typeOfV] at h
  case num n => simp [typeOfV] at h
  case str s => simp [typeOfV] at h
  case ref a =>
    simp only [typeOfV] at h
    cases hf : heapFind H a with
    | none => exact ⟨a, rfl, Or.inr hf⟩
    | some o =>
      rw [hf] at h
      cases o with
      | arr es => simp at h
      | obj ps => exact ⟨a, rfl, Or.inl ⟨ps, hf⟩⟩

theorem addRefT_refs (g : Bool) (st : TravSt) (v : HVal) (rl : List HVal)
    (h : st.refs = some rl) : ∃ δ, (addRefT g st v).refs = some (rl ++ δ) := by
  cases g
  · exact ⟨[], by simp [addRefT, h]⟩
  · cases ht : truthy v
    · exact ⟨[], by simp [addRefT, h, ht]⟩
    · exact ⟨[v], by simp [addRefT, h, ht]⟩

theorem addRefT_push (st : TravSt) (v : HVal) (rl : List HVal) (h : st.refs = some rl)
    (ht : truthy v = true) : addRefT true st v = { st with refs := some (rl ++ [v]) } := by
  simp [addRefT, h, ht]

theorem addRefC_refs (g : Bool) (ctx : Ctx) (v : HVal) (rl : List HVal)
    (h : ctx.refs = some rl) : ∃ δ, (addRefC g ctx v).refs = some (rl ++ δ) := by
  cases g
  · exact ⟨[], by simp [addRefC, h]⟩
  · cases ht : truthy v
    · exact ⟨[], by simp [addRefC, h, ht]⟩
    · exact ⟨[v], by simp [addRefC, h, ht]⟩

theorem addRefC_refs_push (ctx : Ctx) (v : HVal) (rl : List HVal) (h : ctx.refs = some rl)
    (ht : truthy v = true) :
    (addRefC true ctx v).refs = some (rl ++ [v]) := by
  simp [addRefC, h, ht]

theorem travChildren_mono (rec : HVal → TravSt → Option (Bool × TravSt))
    (hrec : TravMono rec) :
    ∀ (vs : List HVal) (st : TravSt) (r : Bool) (st' : TravSt),
      travChildren rec vs st = some (r, st') →
      ∀ rl, st.refs = some rl → ∃ ext, st'.refs = some (rl ++ ext) := by
  intro vs
  induction vs with
  | nil =>
    intro st r st' h rl hrl
    simp only [travChildren] at h
    cases h
    exact ⟨[], by simp [hrl]⟩
  | cons v rest ih =>
    intro st r st' h rl hrl
    simp only [travChildren, bind, Option.bind] at h
    cases hc : rec v st with
    | none => rw [hc] at h; cases h
    | some out =>
      rw [hc] at h
      obtain ⟨r1, st1⟩ := out
      obtain ⟨e1, he1⟩ := hrec v st r1 st1 hc rl hrl
      obtain ⟨e2, he2⟩ := ih st1 r st' h (rl ++ e1) he1
      exact ⟨e1 ++ e2, by rw [he2, List.append_assoc]⟩

theorem travVisitF_mono (O : Opts) (H : Heap) : ∀ f, TravMono (travVisitF O H f) := by
  intro f
  induction f with
  | zero =>
    intro v st r st' h rl hrl
    simp [travVisitF] at h
  | succ f ih =>
    intro v st r st' h rl hrl
    simp only [travVisitF] at h
    by_cases hh : hasRefT st v = true
    · rw [if_pos hh] at h
      cases h
      exact ⟨[], by simp [hrl]⟩
    · rw [if_neg hh] at h
      split at h
      · obtain ⟨δ, hδ⟩ := addRefT_refs O.guardCircularRefs st v rl hrl
        obtain ⟨ext, hext⟩ := travChildren_mono _ ih _ _ _ _ h (rl ++ δ) hδ
        exact ⟨δ ++ ext, by rw [hext, List.append_assoc]⟩
      · obtain ⟨δ, hδ⟩ := addRefT_refs O.guardCircularRefs st v rl hrl
        obtain ⟨ext, hext⟩ := travChildren_mono _ ih _ _ _ _ h (rl ++ δ) hδ
        exact ⟨δ ++ ext, by rw [hext, List.append_assoc]⟩
      · cases h
        exact ⟨[], by simp [hrl]⟩

theorem travChildren_total (rec : HVal → TravSt → Option (Bool × TravSt))
    (P : List HVal → Prop) (hmono : TravMono rec)
    (hP : ∀ rl ext, P rl → P (rl ++ ext))
    (htot : ∀ v st rl, st.refs = some rl → P rl → (rec v st).isSome = true) :
    ∀ (vs : List HVal) (st : TravSt) (rl : List HVal), st.refs = some rl → P rl →
      (travChildren rec vs st).isSome = true := by
  intro vs
  induction vs with
  | nil =>
    intro st rl hrl hp
    rfl
  | cons v rest ih =>
    intro st rl hrl hp
    have h1 := htot v st rl hrl hp
    cases hc : rec v st with
    | none => rw [hc] at h1; cases h1
    | some out =>
      obtain ⟨r1, st1⟩ := out
      obtain ⟨e1, he1⟩ := hmono v st r1 st1 hc rl hrl
      have h2 := ih st1 (rl ++ e1) he1 (hP rl e1 hp)
      simp only [travChildren, bind, Option.bind, hc]
      exact h2

theorem travVisitF_total (O : Opts) (H : Heap) (hg : O.guardCircularRefs = true) :
    ∀ (f : Nat) (v : HVal) (st : TravSt) (rl : List HVal),
      st.refs = some rl → uncovered H rl < f → (travVisitF O H f v st).isSome = true := by
  intro f
  induction f with
  | zero =>
    intro v st rl hrl hb
    exact absurd hb (Nat.not_lt_zero _)
  | succ f ih =>
    intro v st rl hrl hb
    by_cases hh : hasRefT st v = true
    · simp [travVisitF, hh]
    · simp only [travVisitF]
      rw [if_neg hh]
      split
      next htv =>
        obtain ⟨a, es, hva, hfa⟩ := typeOfV_array_cases H v htv
        subst hva
        have hdom := heapFind_mem_dom H a _ hfa
        have hcnt : rl.contains (HVal.ref a) = false := by
          simp only [hasRefT, hrl, truthy_ref, Bool.true_and, Bool.not_eq_true] at hh
          exact hh
        have hstep := uncovered_push_lt H rl a hdom hcnt
        rw [hg, addRefT_push st (HVal.ref a) rl hrl (truthy_ref a)]
        apply travChildren_total (travVisitF O H f) (fun rl' => uncovered H rl' < f)
          (travVisitF_mono O H f)
          (fun rl' ext hp => lt_of_le_of_lt (uncovered_append_le H rl' ext) hp)
          (fun v' st' rl' h1 h2 => ih v' st' rl' h1 h2)
          _ _ (rl ++ [HVal.ref a]) rfl
        omega
      next htv =>
        obtain ⟨a, hva, hcases⟩ := typeOfV_object_cases H v htv
        subst hva
        cases hcases with
        | inl hobj =>
          obtain ⟨ps, hfa⟩ := hobj
          have hdom := heapFind_mem_dom H a _ hfa
          have hcnt : rl.contains (HVal.ref a) = false := by
            simp only [hasRefT, hrl, truthy_ref, Bool.true_and, Bool.not_eq_true] at hh
            exact hh
          have hstep := uncovered_push_lt H rl a hdom hcnt
          rw [hg, addRefT_push st (HVal.ref a) rl hrl (truthy_ref a)]
          apply travChildren_total (travVisitF O H f) (fun rl' => uncovered H rl' < f)
            (travVisitF_mono O H f)
            (fun rl' ext hp => lt_of_le_of_lt (uncovered_append_le H rl' ext) hp)
            (fun v' st' rl' h1 h2 => ih v' st' rl' h1 h2)
            _ _ (rl ++ [HVal.ref a]) rfl
          omega
        | inr hnone =>
          have hrp : objPropsH H (HVal.ref a) = [] := by simp [objPropsH, hnone]
          simp [hrp, travChildren]
      next =>
        rfl

theorem areEqualH_refs (ctx : Ctx) (c : CmpRes) : ((areEqualH ctx c).2).refs = ctx.refs := by
  unfold areEqualH
  split
  · split <;> rfl
  · split <;> rfl

theorem notEqualH_refs (M : Mode) (l r : Elem) (c : CmpRes) (ctx : Ctx) :
    ((notEqualH M l r c ctx).2).refs = ctx.refs := by
  cases M <;> (simp only [notEqualH]; split <;> rfl)

theorem noRhsH_refs (M : Mode) (l : Elem) (ctx : Ctx) :
    ((noRhsH M l ctx).2).refs = ctx.refs := by
  cases M <;> (simp only [noRhsH]; split <;> rfl)

theorem createAddH_not_fuelOut (r : Elem) : createAddH r ≠ .error .fuelOut := by
  intro h
  unfold createAddH at h
  split at h
  · simp at h
  · split at h <;> simp at h

theorem noLhsH_not_fuelOut (M : Mode) (r : Elem) (ctx : Ctx) :
    noLhsH M r ctx ≠ .error .fuelOut := by
  intro h
  cases M <;> simp only [noLhsH] at h
  · split at h <;> simp at h
  · split at h
    · simp at h
    · simp only [bind, Except.bind] at h
      cases hc : createAddH r with
      | error e =>
        rw [hc] at h
        injection h with h2
        exact createAddH_not_fuelOut r (h2 ▸ hc)
      | ok c =>
        rw [hc] at h
        simp at h

theorem noLhsH_refs (M : Mode) (r : Elem) (ctx : Ctx) (res : VRes) (ctx' : Ctx)
    (h : noLhsH M r ctx = .ok (res, ctx')) : ctx'.refs = ctx.refs := by
  cases M <;> simp only [noLhsH] at h
  · split at h <;> (injection h with h2; injection h2 with ha hb; subst hb; rfl)
  · split at h
    · injection h with h2
      injection h2 with ha hb
      subst hb
      rfl
    · simp only [bind, Except.bind] at h
      cases hc : createAddH r with
      | error e => rw [hc] at h; cases h
      | ok c =>
        rw [hc] at h
        injection h with h2
        injection h2 with ha hb
        subst hb
        rfl

theorem leafDispatch_refs (M : Mode) (l r : Elem) (ctx : Ctx) (c : CmpRes) :
    ((if isEqualRes c = true then areEqualH ctx c else notEqualH M l r c ctx)).2.refs =
      ctx.refs := by
  split
  · exact areEqualH_refs ctx c
  · exact notEqualH_refs M l r c ctx

theorem visitOtherF_refs (M : Mode) (O : Opts) (H : Heap) (l r : Elem) (ctx : Ctx) :
    ((visitOtherF M O H l r ctx).2).refs = ctx.refs := by
  unfold visitOtherF
  split <;> exact leafDispatch_refs M l r ctx _

theorem remPropsLoop_refs (M : Mode) (H : Heap) (l : Elem) :
    ∀ (ps : List String) (ctx : Ctx) (ab : Option Elem) (ctx' : Ctx),
      remPropsLoop M H l ps ctx = (ab, ctx') → ctx'.refs = ctx.refs := by
  intro ps
  induction ps with
  | nil =>
    intro ctx ab ctx' h
    simp only [remPropsLoop] at h
    cases h
    rfl
  | cons p rest ih =>
    intro ctx ab ctx' h
    simp only [remPropsLoop] at h
    cases hn : noRhsH M (objChild H l p) ctx with
    | mk res1 ctx1 =>
      rw [hn] at h
      have hr : ctx1.refs = ctx.refs := by
        have h0 := noRhsH_refs M (objChild H l p) ctx
        rw [hn] at h0
        exact h0
      cases res1 with
      | node e =>
        cases h
        exact hr
      | b bl =>
        exact (ih ctx1 ab ctx' h).trans hr

theorem addPropsLoop_refs (M : Mode) (H : Heap) (r : Elem) :
    ∀ (ps : List String) (ctx : Ctx) (ab : Option Elem) (ctx' : Ctx),
      addPropsLoop M H r ps ctx = .ok (ab, ctx') → ctx'.refs = ctx.refs := by
  intro ps
  induction ps with
  | nil =>
    intro ctx ab ctx' h
    simp only [addPropsLoop] at h
    cases h
    rfl
  | cons p rest ih =>
    intro ctx ab ctx' h
    simp only [addPropsLoop, bind, Except.bind] at h
    cases hn : noLhsH M (objChild H r p) ctx with
    | error e => rw [hn] at h; cases h
    | ok out =>
      rw [hn] at h
      obtain ⟨res1, ctx1⟩ := out
      have hr : ctx1.refs = ctx.refs := noLhsH_refs M _ ctx res1 ctx1 hn
      cases res1 with
      | node e =>
        cases h
        exact hr
      | b bl =>
        exact (ih ctx1 ab ctx' h).trans hr

theorem sharedPropsLoop_mono (cmp : Option Elem → Option Elem → Ctx → CResult)
    (hmono : CmpMono cmp) (H : Heap) (l r : Elem) :
    ∀ (ps : List String) (ctx : Ctx) (ab : Option Elem) (ctx' : Ctx),
      sharedPropsLoop cmp H l r ps ctx = .ok (ab, ctx') →
      ∀ rl, ctx.refs = some rl → ∃ ext, ctx'.refs = some (rl ++ ext) := by
  intro ps
  induction ps with
  | nil =>
    intro ctx ab ctx' h rl hrl
    simp only [sharedPropsLoop] at h
    cases h
    exact ⟨[], by simp [hrl]⟩
  | cons p rest ih =>
    intro ctx ab ctx' h rl hrl
    simp only [sharedPropsLoop, bind, Except.bind] at h
    cases hc : cmp (some (objChild H l p)) (some (objChild H r p)) ctx with
    | error e => rw [hc] at h; cases h
    | ok out =>
      rw [hc] at h
      obtain ⟨res1, ctx1⟩ := out
      obtain ⟨e1, he1⟩ := hmono _ _ _ _ _ hc rl hrl
      cases res1 with
      | node e =>
        cases h
        exact ⟨e1, he1⟩
      | b bl =>
        obtain ⟨e2, he2⟩ := ih ctx1 ab ctx' h (rl ++ e1) he1
        exact ⟨e1 ++ e2, by rw [he2, List.append_assoc]⟩

theorem strictPairsLoop_mono (cmp : Option Elem → Option Elem → Ctx → CResult)
    (hmono : CmpMono cmp) (lE rE : List Elem) :
    ∀ (idxs : List Nat) (ctx : Ctx) (ab : Option Elem) (ctx' : Ctx),
      strictPairsLoop cmp lE rE idxs ctx = .ok (ab, ctx') →
      ∀ rl, ctx.refs = some rl → ∃ ext, ctx'.refs = some (rl ++ ext) := by
  intro idxs
  induction idxs with
  | nil =>
    intro ctx ab ctx' h rl hrl
    simp only [strictPairsLoop] at h
    cases h
    exact ⟨[], by simp [hrl]⟩
  | cons i rest ih =>
    intro ctx ab ctx' h rl hrl
    simp only [strictPairsLoop, bind, Except.bind] at h
    cases hc : cmp (lE.get? i) (rE.get? i) ctx with
    | error e => rw [hc] at h; cases h
    | ok out =>
      rw [hc] at h
      obtain ⟨res1, ctx1⟩ := out
      obtain ⟨e1, he1⟩ := hmono _ _ _ _ _ hc rl hrl
      cases res1 with
      | node e =>
        cases h
        exact ⟨e1, he1⟩
      | b bl =>
        obtain ⟨e2, he2⟩ := ih ctx1 ab ctx' h (rl ++ e1) he1
        exact ⟨e1 ++ e2, by rw [he2, List.append_assoc]⟩

theorem laxSharedLoop_mono (cmp : Option Elem → Option Elem → Ctx → CResult)
    (hmono : CmpMono cmp) (lE rE : List Elem) :
    ∀ (ams : List ArrayMatch) (ctx : Ctx) (ab : Option Elem) (ctx' : Ctx),
      laxSharedLoop cmp lE rE ams ctx = .ok (ab, ctx') →
      ∀ rl, ctx.refs = some rl → ∃ ext, ctx'.refs = some (rl ++ ext) := by
  intro ams
  induction ams with
  | nil =>
    intro ctx ab ctx' h rl hrl
    simp only [laxSharedLoop] at h
    cases h
    exact ⟨[], by simp [hrl]⟩
  | cons am rest ih =>
    intro ctx ab ctx' h rl hrl
    simp only [laxSharedLoop, bind, Except.bind] at h
    cases hc : cmp (some (elemAtInt lE am.lhIdx)) (some (elemAtInt rE am.rhIdx)) ctx with
    | error e => rw [hc] at h; cases h
    | ok out =>
      rw [hc] at h
      obtain ⟨res1, ctx1⟩ := out
      obtain ⟨e1, he1⟩ := hmono _ _ _ _ _ hc rl hrl
      cases res1 with
      | node e =>
        cases h
        exact ⟨e1, he1⟩
      | b bl =>
        obtain ⟨e2, he2⟩ := ih ctx1 ab ctx' h (rl ++ e1) he1
        exact ⟨e1 ++ e2, by rw [he2, List.append_assoc]⟩

theorem laxRemovedLoop_refs (M : Mode) (lE : List Elem) :
    ∀ (ams : List ArrayMatch) (ctx : Ctx) (ab : Option Elem) (ctx' : Ctx),
      laxRemovedLoop M lE ams ctx = (ab, ctx') → ctx'.refs = ctx.refs := by
  intro ams
  induction ams with
  | nil =>
    intro ctx ab ctx' h
    simp only [laxRemovedLoop] at h
    cases h
    rfl
  | cons am rest ih =>
    intro ctx ab ctx' h
    simp only [laxRemovedLoop] at h
    cases hn : noRhsH M (elemAtInt lE am.lhIdx) ctx with
    | mk res1 ctx1 =>
      rw [hn] at h
      have hr : ctx1.refs = ctx.refs := by
        have h0 := noRhsH_refs M (elemAtInt lE am.lhIdx) ctx
        rw [hn] at h0
        exact h0
      cases res1 with
      | node e =>
        cases h
        exact hr
      | b bl =>
        exact (ih ctx1 ab ctx' h).trans hr

theorem laxAddedLoop_refs (M : Mode) (rE : List Elem) :
    ∀ (ams : List ArrayMatch) (ctx : Ctx) (ab : Option Elem) (ctx' : Ctx),
      laxAddedLoop M rE ams ctx = .ok (ab, ctx') → ctx'.refs = ctx.refs := by
  intro ams
  induction ams with
  | nil =>
    intro ctx ab ctx' h
    simp only [laxAddedLoop] at h
    cases h
    rfl
  | cons am rest ih =>
    intro ctx ab ctx' h
    simp only [laxAddedLoop, bind, Except.bind] at h
    cases hn : noLhsH M (elemAtInt rE am.rhIdx) ctx with
    | error e => rw [hn] at h; cases h
    | ok out =>
      rw [hn] at h
      obtain ⟨res1, ctx1⟩ := out
      have hr : ctx1.refs = ctx.refs := noLhsH_refs M _ ctx res1 ctx1 hn
      cases res1 with
      | node e =>
        cases h
        exact hr
      | b bl =>
        exact (ih ctx1 ab ctx' h).trans hr

theorem findLoop_mono (cmp : Option Elem → Option Elem → Ctx → CResult)
    (hmono : CmpMono cmp) (elem : Elem) :
    ∀ (cands : List Elem) (ctx : Ctx) (found : Option Elem) (ctx' : Ctx),
      findLoop cmp elem cands ctx = .ok (found, ctx') →
      ∀ rl, ctx.refs = some rl → ∃ ext, ctx'.refs = some (rl ++ ext) := by
  intro cands
  induction cands with
  | nil =>
    intro ctx found ctx' h rl hrl
    simp only [findLoop] at h
    cases h
    exact ⟨[], by simp [hrl]⟩
  | cons p rest ih =>
    intro ctx found ctx' h rl hrl
    simp only [findLoop, bind, Except.bind] at h
    cases hc : cmp (some elem) (some p) { ctx with searchResult := none, searching := true } with
    | error e => rw [hc] at h; cases h
    | ok out =>
      rw [hc] at h
      obtain ⟨res1, ctx2⟩ := out
      simp only [Except.bind] at h
      obtain ⟨e1, he1⟩ := hmono _ _ _ _ _ hc rl hrl
      split at h
      · cases h
        exact ⟨e1, he1⟩
      · obtain ⟨e2, he2⟩ := ih _ found ctx' h (rl ++ e1) he1
        exact ⟨e1 ++ e2, by rw [he2, List.append_assoc]⟩

theorem findIndexOfGen_mono (cmp : Option Elem → Option Elem → Ctx → CResult)
    (hmono : CmpMono cmp) (H : Heap) (elem : Elem) (arr : List Elem)
    (consumedIdx : List (Option SegV)) (ctx : Ctx) (idx : Int)
    (consumed' : List (Option SegV)) (ctx' : Ctx)
    (h : findIndexOfGen cmp H elem arr consumedIdx ctx = .ok (idx, consumed', ctx')) :
    ∀ rl, ctx.refs = some rl → ∃ ext, ctx'.refs = some (rl ++ ext) := by
  intro rl hrl
  simp only [findIndexOfGen, bind, Except.bind] at h
  by_cases hl :
      (arr.filter (fun x =>
        typeOfV H x.value = typeOfV H elem.value && !(consumedIdx.contains x.property))).length = 0
  · rw [if_pos hl] at h
    cases h
    exact ⟨[], by simp [hrl]⟩
  · rw [if_neg hl] at h
    cases hc : findLoop cmp elem
        (arr.filter (fun x =>
          typeOfV H x.value = typeOfV H elem.value && !(consumedIdx.contains x.property))) ctx with
    | error e => rw [hc] at h; cases h
    | ok out =>
      rw [hc] at h
      obtain ⟨found, ctx1⟩ := out
      simp only [Except.bind] at h
      obtain ⟨e1, he1⟩ := findLoop_mono cmp hmono elem _ _ _ _ hc rl hrl
      cases found with
      | some f =>
        cases h
        exact ⟨e1, he1⟩
      | none =>
        cases h
        exact ⟨e1, he1⟩

theorem laxMatchLoop_mono (cmp : Option Elem → Option Elem → Ctx → CResult)
    (hmono : CmpMono cmp) (H : Heap) (rE : List Elem) :
    ∀ (les : List (Nat × Elem)) (sh0 rm0 : List ArrayMatch) (cons0 : List (Option SegV))
      (ctx : Ctx) (sh rm : List ArrayMatch) (cons1 : List (Option SegV)) (ctx' : Ctx),
      laxMatchLoop (findIndexOfGen cmp H) rE les (sh0, rm0, cons0, ctx) =
        .ok (sh, rm, cons1, ctx') →
      ∀ rl, ctx.refs = some rl → ∃ ext, ctx'.refs = some (rl ++ ext) := by
  intro les
  induction les with
  | nil =>
    intro sh0 rm0 cons0 ctx sh rm cons1 ctx' h rl hrl
    simp only [laxMatchLoop] at h
    cases h
    exact ⟨[], by simp [hrl]⟩
  | cons hd rest ih =>
    intro sh0 rm0 cons0 ctx sh rm cons1 ctx' h rl hrl
    obtain ⟨i, le⟩ := hd
    simp only [laxMatchLoop, bind, Except.bind] at h
    cases hfio : findIndexOfGen cmp H le rE cons0 ctx with
    | error e => rw [hfio] at h; cases h
    | ok out =>
      rw [hfio] at h
      obtain ⟨rhIdx, consumed1, ctx1⟩ := out
      simp only [Except.bind] at h
      obtain ⟨e1, he1⟩ :=
        findIndexOfGen_mono cmp hmono H le rE cons0 ctx rhIdx consumed1 ctx1 hfio rl hrl
      split at h <;>
        (obtain ⟨e2, he2⟩ := ih _ _ _ ctx1 sh rm cons1 ctx' h (rl ++ e1) he1;
          exact ⟨e1 ++ e2, by rw [he2, List.append_assoc]⟩)

theorem visitObjectGen_mono (cmp : Option Elem → Option Elem → Ctx → CResult)
    (hmono : CmpMono cmp) (M : Mode) (H : Heap) (l r : Elem) (ctx : Ctx)
    (res : VRes) (ctx' : Ctx)
    (h : visitObjectGen cmp M H l r ctx = .ok (res, ctx')) :
    ∀ rl, ctx.refs = some rl → ∃ ext, ctx'.refs = some (rl ++ ext) := by
  intro rl hrl
  simp only [visitObjectGen, bind, Except.bind] at h
  cases h1 : remPropsLoop M H l
      ((objPropsH H l.value).filter fun x => !(objPropsH H r.value).contains x) ctx with
  | mk ab1 ctx1 =>
    rw [h1] at h
    have hr1 : ctx1.refs = ctx.refs := remPropsLoop_refs M H l _ ctx ab1 ctx1 h1
    cases ab1 with
    | some e =>
      simp only at h
      cases h
      exact ⟨[], by simp [hr1, hrl]⟩
    | none =>
      simp only at h
      cases h2 : addPropsLoop M H r
          ((objPropsH H r.value).filter fun x => !(objPropsH H l.value).contains x) ctx1 with
      | error e => rw [h2] at h; cases h
      | ok out2 =>
        rw [h2] at h
        obtain ⟨ab2, ctx2⟩ := out2
        simp only [Except.bind] at h
        have hr2 : ctx2.refs = ctx1.refs := addPropsLoop_refs M H r _ ctx1 ab2 ctx2 h2
        have hrl2 : ctx2.refs = some rl := by rw [hr2, hr1, hrl]
        cases ab2 with
        | some e =>
          cases h
          exact ⟨[], by simp [hrl2]⟩
        | none =>
          cases h3 : sharedPropsLoop cmp H l r
              ((objPropsH H l.value).filter fun x => (objPropsH H r.value).contains x) ctx2 with
          | error e => rw [h3] at h; cases h
          | ok out3 =>
            rw [h3] at h
            obtain ⟨ab3, ctx3⟩ := out3
            simp only [Except.bind] at h
            obtain ⟨e3, he3⟩ := sharedPropsLoop_mono cmp hmono H l r _ ctx2 ab3 ctx3 h3 rl hrl2
            cases ab3 with
            | some e => cases h; exact ⟨e3, he3⟩
            | none => cases h; exact ⟨e3, he3⟩

theorem visitArrayGen_mono (cmp : Option Elem → Option Elem → Ctx → CResult)
    (hmono : CmpMono cmp) (M : Mode) (O : Opts) (H : Heap) (l r : Elem) (ctx : Ctx)
    (res : VRes) (ctx' : Ctx)
    (h : visitArrayGen cmp M O H l r ctx = .ok (res, ctx')) :
    ∀ rl, ctx.refs = some rl → ∃ ext, ctx'.refs = some (rl ++ ext) := by
  intro rl hrl
  simp only [visitArrayGen, bind, Except.bind] at h
  by_cases hlax : O.laxArrayOrdering = true
  · rw [if_pos hlax] at h
    cases h1 : laxMatchLoop (findIndexOfGen cmp H) (mkArrayElems O H r (arrElemsH H r.value))
        (enumIdx (mkArrayElems O H l (arrElemsH H l.value))) ([], [], [], ctx) with
    | error e => rw [h1] at h; cases h
    | ok out1 =>
      rw [h1] at h
      obtain ⟨sh, rm, cons1, ctx1⟩ := out1
      simp only [Except.bind] at h
      obtain ⟨e1, he1⟩ := laxMatchLoop_mono cmp hmono H _ _ [] [] [] ctx sh rm cons1 ctx1 h1 rl hrl
      cases h2 : laxSharedLoop cmp (mkArrayElems O H l (arrElemsH H l.value))
          (mkArrayElems O H r (arrElemsH H r.value))
          (sortBy (fun a b => decide (b.lhIdx ≤ a.lhIdx)) sh) ctx1 with
      | error e => rw [h2] at h; cases h
      | ok out2 =>
        rw [h2] at h
        obtain ⟨ab2, ctx2⟩ := out2
        simp only [Except.bind] at h
        obtain ⟨e2, he2⟩ := laxSharedLoop_mono cmp hmono _ _ _ ctx1 ab2 ctx2 h2 (rl ++ e1) he1
        have hcomb2 : ctx2.refs = some (rl ++ (e1 ++ e2)) := by
          rw [he2, List.append_assoc]
        cases ab2 with
        | some e => cases h; exact ⟨e1 ++ e2, hcomb2⟩
        | none =>
          cases h3 : laxRemovedLoop M (mkArrayElems O H l (arrElemsH H l.value))
              (sortBy (fun a b => decide (b.lhIdx ≤ a.lhIdx)) rm) ctx2 with
          | mk ab3 ctx3 =>
            rw [h3] at h
            have hr3 : ctx3.refs = ctx2.refs := laxRemovedLoop_refs M _ _ ctx2 ab3 ctx3 h3
            have hcomb3 : ctx3.refs = some (rl ++ (e1 ++ e2)) := hr3.trans hcomb2
            cases ab3 with
            | some e =>
              simp only at h
              cases h
              exact ⟨e1 ++ e2, hcomb3⟩
            | none =>
              simp only at h
              cases h4 : laxAddedLoop M (mkArrayElems O H r (arrElemsH H r.value))
                  (sortBy (fun a b => decide (a.rhIdx ≤ b.rhIdx))
                    (laxAdded (mkArrayElems O H r (arrElemsH H r.value)).length cons1)) ctx3 with
              | error e => rw [h4] at h; cases h
              | ok out4 =>
                rw [h4] at h
                obtain ⟨ab4, ctx4⟩ := out4
                simp only [Except.bind] at h
                have hr4 : ctx4.refs = ctx3.refs := laxAddedLoop_refs M _ _ ctx3 ab4 ctx4 h4
                have hcomb4 : ctx4.refs = some (rl ++ (e1 ++ e2)) := hr4.trans hcomb3
                cases ab4 with
                | some e => cases h; exact ⟨e1 ++ e2, hcomb4⟩
                | none => cases h; exact ⟨e1 ++ e2, hcomb4⟩
  · rw [if_neg hlax] at h
    cases h1 : strictPairsLoop cmp (mkArrayElems O H l (arrElemsH H l.value))
        (mkArrayElems O H r (arrElemsH H r.value))
        (List.range
          (if (mkArrayElems O H l (arrElemsH H l.value)).length >
              (mkArrayElems O H r (arrElemsH H r.value)).length then
            (mkArrayElems O H l (arrElemsH H l.value)).length
          else (mkArrayElems O H r (arrElemsH H r.value)).length)).reverse ctx with
    | error e => rw [h1] at h; cases h
    | ok out1 =>
      rw [h1] at h
      obtain ⟨ab1, ctx1⟩ := out1
      simp only [Except.bind] at h
      obtain ⟨e1, he1⟩ := strictPairsLoop_mono cmp hmono _ _ _ ctx ab1 ctx1 h1 rl hrl
      cases ab1 with
      | some e => cases h; exact ⟨e1, he1⟩
      | none => cases h; exact ⟨e1, he1⟩

theorem compareF_mono (M : Mode) (O : Opts) (H : Heap) :
    ∀ f, CmpMono (compareF M O H f) := by
  intro f
  induction f with
  | zero =>
    intro l r ctx res ctx' h
    simp [compareF] at h
  | succ f ih =>
    intro lhs? rhs? ctx res ctx' h
    intro rl hrl
    cases lhs? with
    | none =>
      cases rhs? with
      | some r =>
        simp only [compareF] at h
        have := noLhsH_refs M r ctx res ctx' h
        exact ⟨[], by simp [this, hrl]⟩
      | none =>
        simp only [compareF] at h
        injection h with h2
        have hp := pair_eq_parts h2
        have := areEqualH_refs ctx IS_SAME
        rw [← hp.2] at *
        exact ⟨[], by simp [this, hrl]⟩
    | some l =>
      cases rhs? with
      | none =>
        simp only [compareF] at h
        injection h with h2
        have hp := pair_eq_parts h2
        have := noRhsH_refs M l ctx
        rw [← hp.2] at *
        exact ⟨[], by simp [this, hrl]⟩
      | some r =>
        simp only [compareF] at h
        by_cases hpos : l.position ≠ r.position
        · rw [if_pos hpos] at h
          injection h with h2
          have hp := pair_eq_parts h2
          have := notEqualH_refs M l r NOT_EQUAL ctx
          rw [← hp.2] at *
          exact ⟨[], by simp [this, hrl]⟩
        · rw [if_neg hpos] at h
          by_cases hid : objectIs l.value r.value = true
          · rw [if_pos hid] at h
            injection h with h2
            have hp := pair_eq_parts h2
            have := areEqualH_refs ctx IS_SAME
            rw [← hp.2] at *
            exact ⟨[], by simp [this, hrl]⟩
          · rw [if_neg hid] at h
            by_cases hty : typeOfV H l.value = typeOfV H r.value
            · rw [if_pos hty] at h
              simp only [superVisitGen] at h
              by_cases hguard : hasReferenceC ctx r.value = true
              · rw [if_pos hguard] at h
                cases h
                exact ⟨[], by simp [hrl]⟩
              · rw [if_neg hguard] at h
                obtain ⟨δ, hδ⟩ := addRefC_refs O.guardCircularRefs ctx r.value rl hrl
                split at h
                · obtain ⟨ext, hext⟩ :=
                    visitArrayGen_mono (compareF M O H f) ih M O H l r _ res ctx' h (rl ++ δ) hδ
                  exact ⟨δ ++ ext, by rw [hext, List.append_assoc]⟩
                · obtain ⟨ext, hext⟩ :=
                    visitObjectGen_mono (compareF M O H f) ih M H l r _ res ctx' h (rl ++ δ) hδ
                  exact ⟨δ ++ ext, by rw [hext, List.append_assoc]⟩
                · injection h with h2
                  have hp := pair_eq_parts h2
                  have := visitOtherF_refs M O H l r ctx
                  rw [← hp.2] at *
                  exact ⟨[], by simp [this, hrl]⟩
            · rw [if_neg hty] at h
              by_cases hlu : typeOfV H l.value = "undefined"
              · rw [if_pos hlu] at h
                have := noLhsH_refs M r ctx res ctx' h
                exact ⟨[], by simp [this, hrl]⟩
              · rw [if_neg hlu] at h
                by_cases hru : typeOfV H r.value = "undefined"
                · rw [if_pos hru] at h
                  injection h with h2
                  have hp := pair_eq_parts h2
                  have := noRhsH_refs M l ctx
                  rw [← hp.2] at *
                  exact ⟨[], by simp [this, hrl]⟩
                · rw [if_neg hru] at h
                  injection h with h2
                  have hp := pair_eq_parts h2
                  have := notEqualH_refs M l r NOT_EQUAL ctx
                  rw [← hp.2] at *
                  exact ⟨[], by simp [this, hrl]⟩

theorem sharedPropsLoop_nofo (cmp : Option Elem → Option Elem → Ctx → CResult)
    (P : List HVal → Prop) (hmono : CmpMono cmp)
    (hP : ∀ rl ext, P rl → P (rl ++ ext)) (htot : CmpNoFuelOut P cmp)
    (H : Heap) (l r : Elem) :
    ∀ (ps : List String) (ctx : Ctx) (rl : List HVal), ctx.refs = some rl → P rl →
      sharedPropsLoop cmp H l r ps ctx ≠ .error .fuelOut := by
  intro ps
  induction ps with
  | nil =>
    intro ctx rl hrl hp h
    simp [sharedPropsLoop] at h
  | cons p rest ih =>
    intro ctx rl hrl hp h
    simp only [sharedPropsLoop, bind, Except.bind] at h
    cases hc : cmp (some (objChild H l p)) (some (objChild H r p)) ctx with
    | error e =>
      rw [hc] at h
      injection h with h2
      exact htot _ _ ctx rl hrl hp (h2 ▸ hc)
    | ok out =>
      rw [hc] at h
      obtain ⟨res1, ctx1⟩ := out
      obtain ⟨e1, he1⟩ := hmono _ _ _ _ _ hc rl hrl
      cases res1 with
      | node e => simp at h
      | b bl => exact ih ctx1 (rl ++ e1) he1 (hP rl e1 hp) h

theorem strictPairsLoop_nofo (cmp : Option Elem → Option Elem → Ctx → CResult)
    (P : List HVal → Prop) (hmono : CmpMono cmp)
    (hP : ∀ rl ext, P rl → P (rl ++ ext)) (htot : CmpNoFuelOut P cmp)
    (lE rE : List Elem) :
    ∀ (idxs : List Nat) (ctx : Ctx) (rl : List HVal), ctx.refs = some rl → P rl →
      strictPairsLoop cmp lE rE idxs ctx ≠ .error .fuelOut := by
  intro idxs
  induction idxs with
  | nil =>
    intro ctx rl hrl hp h
    simp [strictPairsLoop] at h
  | cons i rest ih =>
    intro ctx rl hrl hp h
    simp only [strictPairsLoop, bind, Except.bind] at h
    cases hc : cmp (lE.get? i) (rE.get? i) ctx with
    | error e =>
      rw [hc] at h
      injection h with h2
      exact htot _ _ ctx rl hrl hp (h2 ▸ hc)
    | ok out =>
      rw [hc] at h
      obtain ⟨res1, ctx1⟩ := out
      obtain ⟨e1, he1⟩ := hmono _ _ _ _ _ hc rl hrl
      cases res1 with
      | node e => simp at h
      | b bl => exact ih ctx1 (rl ++ e1) he1 (hP rl e1 hp) h

theorem laxSharedLoop_nofo (cmp : Option Elem → Option Elem → Ctx → CResult)
    (P : List HVal → Prop) (hmono : CmpMono cmp)
    (hP : ∀ rl ext, P rl → P (rl ++ ext)) (htot : CmpNoFuelOut P cmp)
    (lE rE : List Elem) :
    ∀ (ams : List ArrayMatch) (ctx : Ctx) (rl : List HVal), ctx.refs = some rl → P rl →
      laxSharedLoop cmp lE rE ams ctx ≠ .error .fuelOut := by
  intro ams
  induction ams with
  | nil =>
    intro ctx rl hrl hp h
    simp [laxSharedLoop] at h
  | cons am rest ih =>
    intro ctx rl hrl hp h
    simp only [laxSharedLoop, bind, Except.bind] at h
    cases hc : cmp (some (elemAtInt lE am.lhIdx)) (some (elemAtInt rE am.rhIdx)) ctx with
    | error e =>
      rw [hc] at h
      injection h with h2
      exact htot _ _ ctx rl hrl hp (h2 ▸ hc)
    | ok out =>
      rw [hc] at h
      obtain ⟨res1, ctx1⟩ := out
      obtain ⟨e1, he1⟩ := hmono _ _ _ _ _ hc rl hrl
      cases res1 with
      | node e => simp at h
      | b bl => exact ih ctx1 (rl ++ e1) he1 (hP rl e1 hp) h

theorem addPropsLoop_nofo (M : Mode) (H : Heap) (r : Elem) :
    ∀ (ps : List String) (ctx : Ctx), addPropsLoop M H r ps ctx ≠ .error .fuelOut := by
  intro ps
  induction ps with
  | nil =>
    intro ctx h
    simp [addPropsLoop] at h
  | cons p rest ih =>
    intro ctx h
    simp only [addPropsLoop, bind, Except.bind] at h
    cases hn : noLhsH M (objChild H r p) ctx with
    | error e =>
      rw [hn] at h
      injection h with h2
      exact noLhsH_not_fuelOut M _ ctx (h2 ▸ hn)
    | ok out =>
      rw [hn] at h
      obtain ⟨res1, ctx1⟩ := out
      cases res1 with
      | node e => simp at h
      | b bl => exact ih ctx1 h

theorem laxAddedLoop_nofo (M : Mode) (rE : List Elem) :
    ∀ (ams : List ArrayMatch) (ctx : Ctx), laxAddedLoop M rE ams ctx ≠ .error .fuelOut := by
  intro ams
  induction ams with
  | nil =>
    intro ctx h
    simp [laxAddedLoop] at h
  | cons am rest ih =>
    intro ctx h
    simp only [laxAddedLoop, bind, Except.bind] at h
    cases hn : noLhsH M (elemAtInt rE am.rhIdx) ctx with
    | error e =>
      rw [hn] at h
      injection h with h2
      exact noLhsH_not_fuelOut M _ ctx (h2 ▸ hn)
    | ok out =>
      rw [hn] at h
      obtain ⟨res1, ctx1⟩ := out
      cases res1 with
      | node e => simp at h
      | b bl => exact ih ctx1 h

theorem findLoop_nofo (cmp : Option Elem → Option Elem → Ctx → CResult)
    (P : List HVal → Prop) (hmono : CmpMono cmp)
    (hP : ∀ rl ext, P rl → P (rl ++ ext)) (htot : CmpNoFuelOut P cmp) (elem : Elem) :
    ∀ (cands : List Elem) (ctx : Ctx) (rl : List HVal), ctx.refs = some rl → P rl →
      findLoop cmp elem cands ctx ≠ .error .fuelOut := by
  intro cands
  induction cands with
  | nil =>
    intro ctx rl hrl hp h
    simp [findLoop] at h
  | cons p rest ih =>
    intro ctx rl hrl hp h
    simp only [findLoop, bind, Except.bind] at h
    cases hc : cmp (some elem) (some p) { ctx with searchResult := none, searching := true } with
    | error e =>
      rw [hc] at h
      injection h with h2
      exact htot _ _ { ctx with searchResult := none, searching := true } rl hrl hp (h2 ▸ hc)
    | ok out =>
      rw [hc] at h
      obtain ⟨res1, ctx2⟩ := out
      simp only [Except.bind] at h
      obtain ⟨e1, he1⟩ := hmono _ _ _ _ _ hc rl hrl
      split at h
      · simp at h
      · have he1' :
            ({ ctx2 with searchResult := ctx.searchResult, searching := ctx.searching } :
              Ctx).refs = some (rl ++ e1) := he1
        exact ih _ (rl ++ e1) he1' (hP rl e1 hp) h

theorem findIndexOfGen_nofo (cmp : Option Elem → Option Elem → Ctx → CResult)
    (P : List HVal → Prop) (hmono : CmpMono cmp)
    (hP : ∀ rl ext, P rl → P (rl ++ ext)) (htot : CmpNoFuelOut P cmp)
    (H : Heap) (elem : Elem) (arr : List Elem) (consumedIdx : List (Option SegV)) (ctx : Ctx)
    (rl : List HVal) (hrl : ctx.refs = some rl) (hp : P rl) :
    findIndexOfGen cmp H elem arr consumedIdx ctx ≠ .error .fuelOut := by
  intro h
  simp only [findIndexOfGen, bind, Except.bind] at h
  by_cases hl :
      (arr.filter (fun x =>
        typeOfV H x.value = typeOfV H elem.value && !(consumedIdx.contains x.property))).length = 0
  · rw [if_pos hl] at h
    cases h
  · rw [if_neg hl] at h
    cases hc : findLoop cmp elem
        (arr.filter (fun x =>
          typeOfV H x.value = typeOfV H elem.value && !(consumedIdx.contains x.property))) ctx with
    | error e =>
      rw [hc] at h
      injection h with h2
      exact findLoop_nofo cmp P hmono hP htot elem _ ctx rl hrl hp (h2 ▸ hc)
    | ok out =>
      rw [hc] at h
      obtain ⟨found, ctx1⟩ := out
      simp only [Except.bind] at h
      cases found with
      | some f => simp at h
      | none => simp at h

theorem laxMatchLoop_nofo (cmp : Option Elem → Option Elem → Ctx → CResult)
    (P : List HVal → Prop) (hmono : CmpMono cmp)
    (hP : ∀ rl ext, P rl → P (rl ++ ext)) (htot : CmpNoFuelOut P cmp)
    (H : Heap) (rE : List Elem) :
    ∀ (les : List (Nat × Elem)) (sh0 rm0 : List ArrayMatch) (cons0 : List (Option SegV))
      (ctx : Ctx) (rl : List HVal), ctx.refs = some rl → P rl →
      laxMatchLoop (findIndexOfGen cmp H) rE les (sh0, rm0, cons0, ctx) ≠ .error .fuelOut := by
  intro les
  induction les with
  | nil =>
    intro sh0 rm0 cons0 ctx rl hrl hp h
    simp [laxMatchLoop] at h
  | cons hd rest ih =>
    intro sh0 rm0 cons0 ctx rl hrl hp h
    obtain ⟨i, le⟩ := hd
    simp only [laxMatchLoop, bind, Except.bind] at h
    cases hfio : findIndexOfGen cmp H le rE cons0 ctx with
    | error e =>
      rw [hfio] at h
      injection h with h2
      exact findIndexOfGen_nofo cmp P hmono hP htot H le rE cons0 ctx rl hrl hp (h2 ▸ hfio)
    | ok out =>
      rw [hfio] at h
      obtain ⟨rhIdx, consumed1, ctx1⟩ := out
      simp only [Except.bind] at h
      obtain ⟨e1, he1⟩ :=
        findIndexOfGen_mono cmp hmono H le rE cons0 ctx rhIdx consumed1 ctx1 hfio rl hrl
      split at h <;> exact ih _ _ _ ctx1 (rl ++ e1) he1 (hP rl e1 hp) h

theorem visitObjectGen_nofo (cmp : Option Elem → Option Elem → Ctx → CResult)
    (P : List HVal → Prop) (hmono : CmpMono cmp)
    (hP : ∀ rl ext, P rl → P (rl ++ ext)) (htot : CmpNoFuelOut P cmp)
    (M : Mode) (H : Heap) (l r : Elem) (ctx : Ctx) (rl : List HVal)
    (hrl : ctx.refs = some rl) (hp : P rl) :
    visitObjectGen cmp M H l r ctx ≠ .error .fuelOut := by
  intro h
  simp only [visitObjectGen, bind, Except.bind] at h
  cases h1 : remPropsLoop M H l
      ((objPropsH H l.value).filter fun x => !(objPropsH H r.value).contains x) ctx with
  | mk ab1 ctx1 =>
    rw [h1] at h
    have hr1 : ctx1.refs = ctx.refs := remPropsLoop_refs M H l _ ctx ab1 ctx1 h1
    cases ab1 with
    | some e => simp at h
    | none =>
      simp only at h
      cases h2 : addPropsLoop M H r
          ((objPropsH H r.value).filter fun x => !(objPropsH H l.value).contains x) ctx1 with
      | error e =>
        rw [h2] at h
        injection h with hes
        exact addPropsLoop_nofo M H r _ ctx1 (hes ▸ h2)
      | ok out2 =>
        rw [h2] at h
        obtain ⟨ab2, ctx2⟩ := out2
        simp only [Except.bind] at h
        have hr2 : ctx2.refs = ctx1.refs := addPropsLoop_refs M H r _ ctx1 ab2 ctx2 h2
        have hrl2 : ctx2.refs = some rl := by rw [hr2, hr1, hrl]
        cases ab2 with
        | some e => simp at h
        | none =>
          cases h3 : sharedPropsLoop cmp H l r
              ((objPropsH H l.value).filter fun x => (objPropsH H r.value).contains x) ctx2 with
          | error e =>
            rw [h3] at h
            injection h with hes
            exact sharedPropsLoop_nofo cmp P hmono hP htot H l r _ ctx2 rl hrl2 hp (hes ▸ h3)
          | ok out3 =>
            rw [h3] at h
            obtain ⟨ab3, ctx3⟩ := out3
            simp only [Except.bind] at h
            cases ab3 with
            | some e => simp at h
            | none => simp at h

theorem visitObjectGen_rempty (cmp : Option Elem → Option Elem → Ctx → CResult)
    (M : Mode) (H : Heap) (l r : Elem) (ctx : Ctx)
    (hrp : objPropsH H r.value = []) :
    visitObjectGen cmp M H l r ctx ≠ .error .fuelOut := by
  intro h
  simp only [visitObjectGen, hrp, bind, Except.bind] at h
  simp only [List.elem_nil, List.contains, Bool.not_false, List.filter_true,
    List.filter_false, List.not_mem_nil] at h
  cases h1 : remPropsLoop M H l (objPropsH H l.value) ctx with
  | mk ab1 ctx1 =>
    rw [h1] at h
    cases ab1 with
    | some e => simp at h
    | none => simp [addPropsLoop, sharedPropsLoop, Except.bind] at h

theorem visitArrayGen_nofo (cmp : Option Elem → Option Elem → Ctx → CResult)
    (P : List HVal → Prop) (hmono : CmpMono cmp)
    (hP : ∀ rl ext, P rl → P (rl ++ ext)) (htot : CmpNoFuelOut P cmp)
    (M : Mode) (O : Opts) (H : Heap) (l r : Elem) (ctx : Ctx) (rl : List HVal)
    (hrl : ctx.refs = some rl) (hp : P rl) :
    visitArrayGen cmp M O H l r ctx ≠ .error .fuelOut := by
  intro h
  simp only [visitArrayGen, bind, Except.bind] at h
  by_cases hlax : O.laxArrayOrdering = true
  · rw [if_pos hlax] at h
    cases h1 : laxMatchLoop (findIndexOfGen cmp H) (mkArrayElems O H r (arrElemsH H r.value))
        (enumIdx (mkArrayElems O H l (arrElemsH H l.value))) ([], [], [], ctx) with
    | error e =>
      rw [h1] at h
      injection h with hes
      exact laxMatchLoop_nofo cmp P hmono hP htot H _ _ [] [] [] ctx rl hrl hp (hes ▸ h1)
    | ok out1 =>
      rw [h1] at h
      obtain ⟨sh, rm, cons1, ctx1⟩ := out1
      simp only [Except.bind] at h
      obtain ⟨e1, he1⟩ := laxMatchLoop_mono cmp hmono H _ _ [] [] [] ctx sh rm cons1 ctx1 h1 rl hrl
      cases h2 : laxSharedLoop cmp (mkArrayElems O H l (arrElemsH H l.value))
          (mkArrayElems O H r (arrElemsH H r.value))
          (sortBy (fun a b => decide (b.lhIdx ≤ a.lhIdx)) sh) ctx1 with
      | error e =>
        rw [h2] at h
        injection h with hes
        exact laxSharedLoop_nofo cmp P hmono hP htot _ _ _ ctx1 (rl ++ e1) he1
          (hP rl e1 hp) (hes ▸ h2)
      | ok out2 =>
        rw [h2] at h
        obtain ⟨ab2, ctx2⟩ := out2
        simp only [Except.bind] at h
        cases ab2 with
        | some e => simp at h
        | none =>
          cases h3 : laxRemovedLoop M (mkArrayElems O H l (arrElemsH H l.value))
              (sortBy (fun a b => decide (b.lhIdx ≤ a.lhIdx)) rm) ctx2 with
          | mk ab3 ctx3 =>
            rw [h3] at h
            cases ab3 with
            | some e => simp at h
            | none =>
              simp only at h
              cases h4 : laxAddedLoop M (mkArrayElems O H r (arrElemsH H r.value))
                  (sortBy (fun a b => decide (a.rhIdx ≤ b.rhIdx))
                    (laxAdded (mkArrayElems O H r (arrElemsH H r.value)).length cons1)) ctx3 with
              | error e =>
                rw [h4] at h
                injection h with hes
                exact laxAddedLoop_nofo M _ _ ctx3 (hes ▸ h4)
              | ok out4 =>
                rw [h4] at h
                obtain ⟨ab4, ctx4⟩ := out4
                simp only [Except.bind] at h
                cases ab4 with
                | some e => simp at h
                | none => simp at h
  · rw [if_neg hlax] at h
    cases h1 : strictPairsLoop cmp (mkArrayElems O H l (arrElemsH H l.value))
        (mkArrayElems O H r (arrElemsH H r.value))
        (List.range
          (if (mkArrayElems O H l (arrElemsH H l.value)).length >
              (mkArrayElems O H r (arrElemsH H r.value)).length then
            (mkArrayElems O H l (arrElemsH H l.value)).length
          else (mkArrayElems O H r (arrElemsH H r.value)).length)).reverse ctx with
    | error e =>
      rw [h1] at h
      injection h with hes
      exact strictPairsLoop_nofo cmp P hmono hP htot _ _ _ ctx rl hrl hp (hes ▸ h1)
    | ok out1 =>
      rw [h1] at h
      obtain ⟨ab1, ctx1⟩ := out1
      simp only [Except.bind] at h
      cases ab1 with
      | some e => simp at h
      | none => simp at h

theorem compareF_total (M : Mode) (O : Opts) (H : Heap) (hg : O.guardCircularRefs = true) :
    ∀ (f : Nat) (lhs? rhs? : Option Elem) (ctx : Ctx) (rl : List HVal),
      ctx.refs = some rl → uncovered H rl < f →
      compareF M O H f lhs? rhs? ctx ≠ .error .fuelOut := by
  intro f
  induction f with
  | zero =>
    intro lhs? rhs? ctx rl hrl hb
    exact absurd hb (Nat.not_lt_zero _)
  | succ f ih =>
    intro lhs? rhs? ctx rl hrl hb h
    cases lhs? with
    | none =>
      cases rhs? with
      | some r =>
        simp only [compareF] at h
        exact noLhsH_not_fuelOut M r ctx h
      | none =>
        simp only [compareF] at h
        cases h
    | some l =>
      cases rhs? with
      | none =>
        simp only [compareF] at h
        cases h
      | some r =>
        simp only [compareF] at h
        by_cases hpos : l.position ≠ r.position
        · rw [if_pos hpos] at h
          cases h
        · rw [if_neg hpos] at h
          by_cases hid : objectIs l.value r.value = true
          · rw [if_pos hid] at h
            cases h
          · rw [if_neg hid] at h
            by_cases hty : typeOfV H l.value = typeOfV H r.value
            · rw [if_pos hty] at h
              simp only [superVisitGen] at h
              by_cases hguard : hasReferenceC ctx r.value = true
              · rw [if_pos hguard] at h
                cases h
              · rw [if_neg hguard] at h
                split at h
                next htv =>
                  obtain ⟨a, es, hva, hfa⟩ := typeOfV_array_cases H r.value htv
                  have hdom := heapFind_mem_dom H a _ hfa
                  have ht : truthy r.value = true := by rw [hva]; rfl
                  have hcnt : rl.contains r.value = false := by
                    simp only [hasReferenceC, hrl, ht, Bool.true_and, Bool.not_eq_true] at hguard
                    exact hguard
                  have h0 : (addRefC O.guardCircularRefs ctx r.value).refs =
                      some (rl ++ [r.value]) := by
                    rw [hg]
                    exact addRefC_refs_push ctx r.value rl hrl ht
                  have hdec : uncovered H (rl ++ [r.value]) < uncovered H rl := by
                    rw [hva] at hcnt ⊢
                    exact uncovered_push_lt H rl a hdom hcnt
                  exact visitArrayGen_nofo (compareF M O H f)
                    (fun rl' => uncovered H rl' < f) (compareF_mono M O H f)
                    (fun rl' ext hpx => lt_of_le_of_lt (uncovered_append_le H rl' ext) hpx)
                    (fun lx rx ctxx rlx hrlx hpx => ih lx rx ctxx rlx hrlx hpx)
                    M O H l r _ (rl ++ [r.value]) h0 (by omega) h
                next htv =>
                  obtain ⟨a, hva, hcases⟩ := typeOfV_object_cases H r.value htv
                  cases hcases with
                  | inl hobj =>
                    obtain ⟨ps, hfa⟩ := hobj
                    have hdom := heapFind_mem_dom H a _ hfa
                    have ht : truthy r.value = true := by rw [hva]; rfl
                    have hcnt : rl.contains r.value = false := by
                      simp only [hasReferenceC, hrl, ht, Bool.true_and, Bool.not_eq_true] at hguard
                      exact hguard
                    have h0 : (addRefC O.guardCircularRefs ctx r.value).refs =
                        some (rl ++ [r.value]) := by
                      rw [hg]
                      exact addRefC_refs_push ctx r.value rl hrl ht
                    have hdec : uncovered H (rl ++ [r.value]) < uncovered H rl := by
                      rw [hva] at hcnt ⊢
                      exact uncovered_push_lt H rl a hdom hcnt
                    exact visitObjectGen_nofo (compareF M O H f)
                      (fun rl' => uncovered H rl' < f) (compareF_mono M O H f)
                      (fun rl' ext hpx => lt_of_le_of_lt (uncovered_append_le H rl' ext) hpx)
                      (fun lx rx ctxx rlx hrlx hpx => ih lx rx ctxx rlx hrlx hpx)
                      M H l r _ (rl ++ [r.value]) h0 (by omega) h
                  | inr hnone =>
                    have hrp : objPropsH H r.value = [] := by rw [hva]; simp [objPropsH, hnone]
                    exact visitObjectGen_rempty (compareF M O H f) M H l r _ hrp h
                next =>
                  cases h
            · rw [if_neg hty] at h
              by_cases hlu : typeOfV H l.value = "undefined"
              · rw [if_pos hlu] at h
                exact noLhsH_not_fuelOut M r ctx h
              · rw [if_neg hlu] at h
                by_cases hru : typeOfV H r.value = "undefined"
                · rw [if_pos hru] at h
                  cases h
                · rw [if_neg hru] at h
                  cases h

/-- C8: the circular-reference guard.  With `guardCircularRefs` enabled: a
node whose value identity is already on the per-context visited list is not
descended into (the visit returns immediately, leaving the state untouched); a
container-kind node's identity is appended to the visited list before any of
its children are visited (the children loop runs in the registered state); and
consequently traversal, equality and diff runs terminate — cyclic graphs
included — whenever the fuel exceeds the number of still-unvisited heap
addresses: the traversal returns a value and the comparisons never exhaust
their fuel. -/
theorem guard_registers_and_terminates (O : Opts) (H : Heap)
    (hg : O.guardCircularRefs = true) (f fuel : Nat) (v lv rv : HVal) (st : TravSt)
    (rl : List HVal) (hrl : st.refs = some rl) :
    (hasRefT st v = true → travVisitF O H (f + 1) v st = some (false, st)) ∧
    (typeOfV H v = "array" → hasRefT st v = false →
      travVisitF O H (f + 1) v st =
        travChildren (travVisitF O H f) (arrElemsH H v)
          { st with refs := some (rl ++ [v]) }) ∧
    (typeOfV H v = "object" → hasRefT st v = false →
      travVisitF O H (f + 1) v st =
        travChildren (travVisitF O H f) ((objPropsH H v).map (fun p => objGetH H v p))
          { st with refs := some (rl ++ [v]) }) ∧
    (uncovered H [] < fuel → (traverseF O H fuel v).isSome = true) ∧
    (uncovered H [] < fuel → equalF O H fuel lv rv ≠ .error .fuelOut) ∧
    (uncovered H [] < fuel → diffF O H fuel lv rv ≠ .error .fuelOut) := by
  refine ⟨?_, ?_, ?_, ?_, ?_, ?_⟩
  · intro h1
    simp [travVisitF, h1]
  · intro htv hh
    have ht : truthy v = true := by
      obtain ⟨a, es, hva, -⟩ := typeOfV_array_cases H v htv
      rw [hva]
      rfl
    simp only [travVisitF]
    rw [if_neg (by simp [hh])]
    split
    next => rw [hg, addRefT_push st v rl hrl ht]
    next h2 => rw [htv] at h2; simp at h2
    next h2 h3 => exact absurd htv h2
  · intro htv hh
    have ht : truthy v = true := by
      obtain ⟨a, hva, -⟩ := typeOfV_object_cases H v htv
      rw [hva]
      rfl
    simp only [travVisitF]
    rw [if_neg (by simp [hh])]
    split
    next h2 => rw [htv] at h2; simp at h2
    next => rw [hg, addRefT_push st v rl hrl ht]
    next h2 h3 => exact absurd htv h3
  · intro hb
    have := travVisitF_total O H hg fuel v { refs := some [] } [] rfl hb
    simpa [traverseF, hg] using this
  · intro hb h
    simp only [equalF, bind, Except.bind] at h
    cases hc : compareF .equalM O H fuel (some (rootElem lv)) (some (rootElem rv))
        (initCtx O) with
    | error e =>
      rw [hc] at h
      injection h with hes
      have hi : (initCtx O).refs = some [] := by simp [initCtx, hg]
      exact compareF_total .equalM O H hg fuel _ _ _ [] hi hb (hes ▸ hc)
    | ok out =>
      rw [hc] at h
      obtain ⟨res0, ctx0⟩ := out
      simp at h
  · intro hb h
    simp only [diffF, bind, Except.bind] at h
    cases hc : compareF .diffM O H fuel (some (rootElem lv)) (some (rootElem rv))
        (initCtx O) with
    | error e =>
      rw [hc] at h
      injection h with hes
      have hi : (initCtx O).refs = some [] := by simp [initCtx, hg]
      exact compareF_total .diffM O H hg fuel _ _ _ [] hi hb (hes ▸ hc)
    | ok out =>
      rw [hc] at h
      obtain ⟨res0, ctx0⟩ := out
      simp at h

/-- Witness for `guard_registers_and_terminates` on the concrete cyclic heap
`heapCyc2` (two self-referential objects): a fresh traversal of the cycle's
root registers the root before visiting its children, a visit that already
holds the root declines to descend, and the traversal, the equality run and
the diff run over the cyclic graph all terminate at fuel 5. -/
theorem guard_registers_and_terminates_witness :
    (({ guardCircularRefs := true } : Opts).guardCircularRefs = true ∧
      ({ refs := some [] } : TravSt).refs = some ([] : List HVal) ∧
      uncovered heapCyc2 [] < 5) ∧
    travVisitF { guardCircularRefs := true } heapCyc2 5 (.ref 0)
        { refs := some [.ref 0] } = some (false, { refs := some [.ref 0] }) ∧
    travVisitF { guardCircularRefs := true } heapCyc2 5 (.ref 0) { refs := some [] } =
      travChildren (travVisitF { guardCircularRefs := true } heapCyc2 4)
        ((objPropsH heapCyc2 (.ref 0)).map (fun p => objGetH heapCyc2 (.ref 0) p))
        { refs := some ([] ++ [HVal.ref 0]) } ∧
    (traverseF { guardCircularRefs := true } heapCyc2 5 (.ref 0)).isSome = true ∧
    equalF { guardCircularRefs := true } heapCyc2 5 (.ref 0) (.ref 1) ≠ .error .fuelOut ∧
    diffF { guardCircularRefs := true } heapCyc2 5 (.ref 0) (.ref 1) ≠ .error .fuelOut := by
  have h := guard_registers_and_terminates { guardCircularRefs := true } heapCyc2 rfl 4 5
    (.ref 0) (.ref 0) (.ref 1) { refs := some [] } [] rfl
  have h2 := guard_registers_and_terminates { guardCircularRefs := true } heapCyc2 rfl 4 5
    (.ref 0) (.ref 0) (.ref 1) { refs := some [.ref 0] } [.ref 0] rfl
  exact ⟨⟨rfl, rfl, by decide⟩, h2.1 rfl, h.2.2.1 rfl rfl, h.2.2.2.1 (by decide),
    h.2.2.2.2.1 (by decide), h.2.2.2.2.2 (by decide)⟩

end Pfta